import Mathlib

/-!
Verification of the GraphLabs graph-algorithms engine.

This file gives a shallow embedding of the core data model
(`graphlabs/core/graph.py`) and of the algorithm modules
(`graphlabs/algorithms/...`), and proves properties of them.

Modelling conventions:
* Python `dict` values are embedded as insertion-ordered association
  lists (`List (Nat × β)`); assignment to an existing key updates the
  entry in place, assignment to a fresh key appends at the end, exactly
  like CPython dictionaries.
* Vertex identifiers come from a monotone counter and are embedded as
  `Nat`.  Edge weights are Python `int`; the specification restricts the
  supported domain to non-negative weights (negative weights are
  documented as unsupported), so weights are embedded as `Nat`.
* Node positions are Python floats that no algorithm ever computes
  with; they are embedded as an opaque pair of `Int`s.
* Recursive Python functions are embedded either by well-founded
  recursion or with an explicit fuel argument bounding the recursion
  depth (mirroring the machine stack); lemmas show that the fuel used
  by the entry points is always sufficient where needed.
-/

namespace GraphLabs

/-- `Node._int_to_letter` helper loop: 0 ↦ "A", 1 ↦ "B", ..., 26 ↦ "AA". -/
def intToLetterAux : Nat → String → String
  | 0, acc => acc
  | Nat.succ m, acc => intToLetterAux (m / 26) (String.mk [Char.ofNat (65 + m % 26)] ++ acc)
termination_by n _ => n
decreasing_by
  exact Nat.lt_succ_of_le (Nat.div_le_self m 26)

/-- `Node._int_to_letter`. -/
def intToLetter (n : Nat) : String := intToLetterAux (n + 1) ""

/-- A vertex (`Node` dataclass): id, position, label and display color. -/
structure Node where
  id : Nat
  x : Int
  y : Int
  label : String
  color : String
deriving DecidableEq

/-- `Node.__post_init__`: an empty label is replaced by the alphabetic label. -/
def mkNode (id : Nat) (x y : Int) (label : String) : Node :=
  { id := id, x := x, y := y,
    label := if label = "" then intToLetter id else label,
    color := "#4A90E2" }

/-- An edge (`Edge` dataclass). -/
structure Edge where
  source : Nat
  target : Nat
  weight : Nat
  directed : Bool
  color : String
deriving DecidableEq

/-- `Edge(source, target, weight, directed)` with the default color. -/
def mkEdge (s t w : Nat) (d : Bool) : Edge :=
  { source := s, target := t, weight := w, directed := d, color := "#333333" }

/-- CPython dict membership test. -/
def dictContains {β : Type} (m : List (Nat × β)) (k : Nat) : Bool :=
  m.any (fun p => p.1 == k)

/-- CPython dict lookup (first — and only — entry with the key). -/
def dictLookup {β : Type} (m : List (Nat × β)) (k : Nat) : Option β :=
  (m.find? (fun p => p.1 == k)).map Prod.snd

/-- CPython dict assignment `m[k] = v`: update in place if the key exists,
append otherwise. -/
def dictAssign {β : Type} (m : List (Nat × β)) (k : Nat) (v : β) : List (Nat × β) :=
  if m.any (fun p => p.1 == k) then
    m.map (fun p => if p.1 == k then (k, v) else p)
  else
    m ++ [(k, v)]

/-- CPython `del m[k]`: drop the entry with the given key. -/
def dictDelete {β : Type} (m : List (Nat × β)) (k : Nat) : List (Nat × β) :=
  m.filter (fun p => !(p.1 == k))

/-- The `Graph` class: insertion-ordered vertex map, edge list, a single
directedness flag and the id counter. -/
structure Graph where
  nodes : List (Nat × Node)
  edges : List Edge
  directed : Bool
  next_id : Nat
deriving DecidableEq

/-- `Graph(directed)`: the freshly constructed graph. -/
def emptyGraph (directed : Bool) : Graph :=
  { nodes := [], edges := [], directed := directed, next_id := 0 }

/-- `node_id in self.nodes`. -/
def Graph.containsNode (g : Graph) (i : Nat) : Bool :=
  dictContains g.nodes i

/-- `Graph.add_node`: inserts a node keyed by the current counter and
bumps the counter; returns the new id together with the new graph. -/
def Graph.add_node (g : Graph) (x y : Int) (label : String) : Nat × Graph :=
  let node_id := g.next_id
  (node_id,
    { g with nodes := dictAssign g.nodes node_id (mkNode node_id x y label),
             next_id := g.next_id + 1 })

/-- `Graph.add_edge`: appends an edge when both endpoints exist, no-op
otherwise. -/
def Graph.add_edge (g : Graph) (source target w : Nat) : Graph :=
  if g.containsNode source && g.containsNode target then
    { g with edges := g.edges ++ [mkEdge source target w g.directed] }
  else g

/-- `Graph.get_edge`: first edge matching the endpoint pair; for
undirected graphs either orientation matches. -/
def Graph.get_edge (g : Graph) (source target : Nat) : Option Edge :=
  g.edges.find? (fun e =>
    (e.source == source && e.target == target) ||
    (!g.directed && e.source == target && e.target == source))

/-- `Graph.remove_node`: deletes the node and every incident edge. -/
def Graph.remove_node (g : Graph) (node_id : Nat) : Graph :=
  if g.containsNode node_id then
    { g with nodes := dictDelete g.nodes node_id,
             edges := g.edges.filter (fun e => !(e.source == node_id) && !(e.target == node_id)) }
  else g

/-- `Graph.remove_edge`: keeps exactly the edges not stored as
`(source, target)`. -/
def Graph.remove_edge (g : Graph) (source target : Nat) : Graph :=
  { g with edges := g.edges.filter (fun e => !(e.source == source && e.target == target)) }

/-- `Graph.get_neighbors`: for each edge in order, the target if the
vertex is the source, else (undirected only) the source if the vertex is
the target. -/
def Graph.get_neighbors (g : Graph) (node_id : Nat) : List Nat :=
  g.edges.filterMap (fun e =>
    if e.source = node_id then some e.target
    else if !g.directed && e.target == node_id then some e.source
    else none)

/-- `Graph.clear`: drop everything and reset the id counter. -/
def Graph.clear (g : Graph) : Graph :=
  { nodes := [], edges := [], directed := g.directed, next_id := 0 }

/-! ### Basic facts about the dictionary embedding -/

theorem dictAssign_of_fresh {β : Type} (m : List (Nat × β)) (k : Nat) (v : β)
    (h : ∀ p ∈ m, p.1 ≠ k) : dictAssign m k v = m ++ [(k, v)] := by
  unfold dictAssign
  have hany : m.any (fun p => p.1 == k) = false := by
    simp only [List.any_eq_false]
    intro p hp
    simpa using h p hp
  simp [hany]

theorem dictDelete_of_absent {β : Type} (m : List (Nat × β)) (k : Nat)
    (h : ∀ p ∈ m, p.1 ≠ k) : dictDelete m k = m := by
  unfold dictDelete
  rw [List.filter_eq_self]
  intro p hp
  simpa using h p hp

theorem dictContains_append_right {β : Type} (m : List (Nat × β)) (k : Nat) (v : β) :
    dictContains (m ++ [(k, v)]) k = true := by
  simp [dictContains]

theorem dictLookup_map_update_self {β : Type} (m : List (Nat × β)) (k : Nat) (v : β) :
    dictLookup (m.map (fun p => if p.1 == k then (k, v) else p)) k =
      (dictLookup m k).map (fun _ => v) := by
  induction m with
  | nil => rfl
  | cons p m ih =>
    by_cases h : p.1 = k
    · rw [List.map_cons, if_pos (by simpa using h)]
      unfold dictLookup
      rw [List.find?_cons_of_pos _ (by simp), List.find?_cons_of_pos _ (by simpa using h)]
      rfl
    · rw [List.map_cons, if_neg (by simpa using h)]
      unfold dictLookup
      rw [List.find?_cons_of_neg _ (by simpa using h),
        List.find?_cons_of_neg _ (by simpa using h)]
      exact ih

theorem dictLookup_map_update_ne {β : Type} (m : List (Nat × β)) (k j : Nat) (v : β)
    (hne : k ≠ j) :
    dictLookup (m.map (fun p => if p.1 == j then (j, v) else p)) k = dictLookup m k := by
  induction m with
  | nil => rfl
  | cons p m ih =>
    by_cases h : p.1 = j
    · rw [List.map_cons, if_pos (by simpa using h)]
      unfold dictLookup
      rw [List.find?_cons_of_neg (p := fun q : Nat × β => q.1 == k) _
          (by simpa using (Ne.symm hne)),
        List.find?_cons_of_neg (p := fun q : Nat × β => q.1 == k) _ (by simp [h]; omega)]
      exact ih
    · rw [List.map_cons, if_neg (by simpa using h)]
      by_cases hpk : p.1 = k
      · unfold dictLookup
        rw [List.find?_cons_of_pos _ (by simpa using hpk),
          List.find?_cons_of_pos _ (by simpa using hpk)]
      · unfold dictLookup
        rw [List.find?_cons_of_neg _ (by simpa using hpk),
          List.find?_cons_of_neg _ (by simpa using hpk)]
        exact ih

theorem dictLookup_assign_self {β : Type} (m : List (Nat × β)) (k : Nat) (v : β) :
    dictLookup (dictAssign m k v) k = some v := by
  unfold dictAssign
  by_cases h : m.any (fun p => p.1 == k) = true
  · rw [if_pos h, dictLookup_map_update_self]
    obtain ⟨p, hp, hpk⟩ := List.any_eq_true.mp h
    obtain ⟨r, hr⟩ : ∃ r, m.find? (fun p => p.1 == k) = some r := by
      rw [← Option.isSome_iff_exists, List.find?_isSome]
      exact ⟨p, hp, hpk⟩
    unfold dictLookup
    rw [hr]
    rfl
  · rw [if_neg h]
    unfold dictLookup
    rw [List.find?_append]
    have hnone : m.find? (fun p => p.1 == k) = none := by
      rw [List.find?_eq_none]
      intro p hp
      exact fun hc => h (List.any_eq_true.mpr ⟨p, hp, hc⟩)
    rw [hnone]
    simp

theorem dictLookup_assign_ne {β : Type} (m : List (Nat × β)) (k j : Nat) (v : β)
    (hne : k ≠ j) : dictLookup (dictAssign m j v) k = dictLookup m k := by
  unfold dictAssign
  by_cases h : m.any (fun p => p.1 == j) = true
  · rw [if_pos h, dictLookup_map_update_ne _ _ _ _ hne]
  · rw [if_neg h]
    unfold dictLookup
    rw [List.find?_append]
    have hsing : ([((j : Nat), v)]).find? (fun p => p.1 == k) = none := by
      rw [List.find?_eq_none]
      intro p hp
      simp only [List.mem_singleton] at hp
      subst hp
      simpa using (Ne.symm hne)
    rw [hsing]
    cases hm : m.find? (fun p => p.1 == k) <;> simp

theorem dictAssign_keys {β : Type} (m : List (Nat × β)) (k : Nat) (v : β) :
    (dictAssign m k v).map Prod.fst =
      if dictContains m k then m.map Prod.fst else m.map Prod.fst ++ [k] := by
  unfold dictAssign dictContains
  by_cases h : m.any (fun p => p.1 == k) = true
  · rw [if_pos h, if_pos h, List.map_map]
    apply List.map_congr_left
    intro p _
    by_cases hp : p.1 = k
    · simp [hp]
    · simp [Function.comp, hp]
  · rw [if_neg h, if_neg h, List.map_append]
    rfl

theorem dictAssign_keys_nodup {β : Type} (m : List (Nat × β)) (k : Nat) (v : β)
    (h : (m.map Prod.fst).Nodup) : ((dictAssign m k v).map Prod.fst).Nodup := by
  rw [dictAssign_keys]
  split
  · exact h
  · rename_i hcont
    rw [List.nodup_append]
    refine ⟨h, List.nodup_singleton _, ?_⟩
    intro a ha hb
    simp only [List.mem_singleton] at hb
    subst hb
    obtain ⟨p, hp, hpk⟩ := List.mem_map.mp ha
    exact hcont (by simp only [dictContains]; exact List.any_eq_true.mpr ⟨p, hp, by simpa using hpk⟩)

theorem dictLookup_of_mem_nodup {β : Type} (m : List (Nat × β)) (p : Nat × β)
    (hnd : (m.map Prod.fst).Nodup) (hp : p ∈ m) : dictLookup m p.1 = some p.2 := by
  induction m with
  | nil => simp at hp
  | cons q m ih =>
    rw [List.map_cons, List.nodup_cons] at hnd
    rcases List.mem_cons.mp hp with h | h
    · subst h
      simp [dictLookup, List.find?_cons]
    · have hne : q.1 ≠ p.1 := by
        intro hc
        exact hnd.1 (hc ▸ List.mem_map.mpr ⟨p, h, rfl⟩)
      simp only [dictLookup, List.find?_cons]
      rw [show (q.1 == p.1) = false by simpa using hne]
      exact ih hnd.2 h

theorem dictLookup_eq_none_iff {β : Type} (m : List (Nat × β)) (k : Nat) :
    dictLookup m k = none ↔ k ∉ m.map Prod.fst := by
  unfold dictLookup
  rw [Option.map_eq_none', List.find?_eq_none]
  constructor
  · intro h hk
    obtain ⟨p, hp, hpk⟩ := List.mem_map.mp hk
    exact absurd (by simpa using hpk) (by simpa using h p hp)
  · intro h p hp
    intro hc
    exact h (List.mem_map.mpr ⟨p, hp, by simpa using hc⟩)

/-! ### Claims C7 and C8: edge removal and round-trips -/

/-- A two-vertex undirected graph whose single edge is stored as `(1, 0)`. -/
def gC7 : Graph :=
  let g1 := ((emptyGraph false).add_node 0 0 "").2
  let g2 := (g1.add_node 1 1 "").2
  g2.add_edge 1 0 1

/-- C7 counterexample: in an undirected graph, `remove_edge(0, 1)` does not
remove an edge stored as `(1, 0)` — an edge between 0 and 1 survives, so a
lookup for the pair still succeeds. -/
theorem c7_remove_edge_reversed_survives :
    gC7.directed = false ∧
    (gC7.remove_edge 0 1).get_edge 0 1 = some (mkEdge 1 0 1 false) ∧
    (gC7.remove_edge 0 1).edges ≠ [] := by
  refine ⟨rfl, rfl, by decide⟩

/-- C7 (amended): for every graph, directed or undirected, `remove_edge(u, v)`
removes exactly the edges stored as `(u, v)`: an edge survives the call iff it
was present and is not stored as `(u, v)`.  An undirected edge stored in the
opposite orientation `(v, u)` is kept. -/
theorem c7_remove_edge_exactly_stored_orientation (g : Graph) (u v : Nat) (e : Edge) :
    e ∈ (g.remove_edge u v).edges ↔ e ∈ g.edges ∧ ¬(e.source = u ∧ e.target = v) := by
  simp [Graph.remove_edge, List.mem_filter, -not_and]
  tauto

/-- Witness for `c7_remove_edge_exactly_stored_orientation` at a concrete
input. -/
theorem c7_remove_edge_exactly_stored_orientation_witness :
    mkEdge 1 0 1 false ∈ (gC7.remove_edge 0 1).edges ↔
      mkEdge 1 0 1 false ∈ gC7.edges ∧
        ¬((mkEdge 1 0 1 false).source = 0 ∧ (mkEdge 1 0 1 false).target = 1) :=
  c7_remove_edge_exactly_stored_orientation gC7 0 1 (mkEdge 1 0 1 false)

/-- A two-vertex undirected graph with one stored `(0, 1)` edge. -/
def gC8 : Graph :=
  let g1 := ((emptyGraph false).add_node 0 0 "").2
  let g2 := (g1.add_node 1 1 "").2
  g2.add_edge 0 1 1

/-- C8 counterexample: adding an edge `(0, 1)` to a graph that already has a
parallel `(0, 1)` edge and then removing `(0, 1)` removes both copies, so the
edge count (and vertex 0's neighbor list) differ from the original graph. -/
theorem c8_round_trip_fails_with_parallel_edge :
    gC8.containsNode 0 = true ∧ gC8.containsNode 1 = true ∧
    ((gC8.add_edge 0 1 1).remove_edge 0 1).edges.length ≠ gC8.edges.length ∧
    ((gC8.add_edge 0 1 1).remove_edge 0 1).get_neighbors 0 ≠ gC8.get_neighbors 0 := by
  refine ⟨rfl, rfl, by decide, by decide⟩

/-- C8 (amended): the add-then-remove round-trips restore the graph provided
no edge stored as `(u, v)` pre-exists (edge part) and the graph's node keys
and edge endpoints are below the id counter (vertex part; this always holds
for graphs built through the mutation operations).  The edge round-trip
restores the graph exactly; the vertex round-trip restores nodes, edges and
hence all neighbor lists and the edge count, only the id counter differs. -/
theorem c8_round_trip_restores_graph :
    (∀ (g : Graph) (u v w : Nat),
      g.containsNode u = true → g.containsNode v = true →
      (∀ e ∈ g.edges, ¬(e.source = u ∧ e.target = v)) →
      (g.add_edge u v w).remove_edge u v = g) ∧
    (∀ (g : Graph) (x y : Int) (lbl : String),
      (∀ p ∈ g.nodes, p.1 < g.next_id) →
      (∀ e ∈ g.edges, e.source < g.next_id ∧ e.target < g.next_id) →
      ((g.add_node x y lbl).2.remove_node (g.add_node x y lbl).1).nodes = g.nodes ∧
      ((g.add_node x y lbl).2.remove_node (g.add_node x y lbl).1).edges = g.edges ∧
      (∀ z, ((g.add_node x y lbl).2.remove_node (g.add_node x y lbl).1).get_neighbors z =
        g.get_neighbors z) ∧
      ((g.add_node x y lbl).2.remove_node (g.add_node x y lbl).1).edges.length =
        g.edges.length) := by
  constructor
  · intro g u v w hu hv hfresh
    have hcond : (g.containsNode u && g.containsNode v) = true := by simp [hu, hv]
    have hadd : g.add_edge u v w =
        { g with edges := g.edges ++ [mkEdge u v w g.directed] } := by
      simp [Graph.add_edge, hcond]
    rw [hadd]
    show Graph.remove_edge _ u v = g
    unfold Graph.remove_edge
    have hkeep : ∀ e ∈ g.edges, (!(e.source == u && e.target == v)) = true := by
      intro e he
      have := hfresh e he
      simp only [Bool.not_eq_true', Bool.and_eq_false_iff]
      by_cases hs : e.source = u
      · right; simp [beq_iff_eq]; intro ht; exact this ⟨hs, ht⟩
      · left; simp [beq_iff_eq]; exact hs
    have : (g.edges ++ [mkEdge u v w g.directed]).filter
        (fun e => !(e.source == u && e.target == v)) = g.edges := by
      rw [List.filter_append, List.filter_eq_self.mpr hkeep]
      simp [mkEdge]
    simp only [this]
  · intro g x y lbl hkeys hends
    set i := g.next_id with hi
    have hfreshk : ∀ p ∈ g.nodes, p.1 ≠ i := fun p hp => Nat.ne_of_lt (hkeys p hp)
    have hnodes2 : (g.add_node x y lbl).2.nodes = g.nodes ++ [(i, mkNode i x y lbl)] := by
      simp [Graph.add_node, dictAssign_of_fresh _ _ _ hfreshk]
    have hid : (g.add_node x y lbl).1 = i := rfl
    have hedges2 : (g.add_node x y lbl).2.edges = g.edges := rfl
    have hcont : (g.add_node x y lbl).2.containsNode i = true := by
      rw [Graph.containsNode, hnodes2]
      exact dictContains_append_right _ _ _
    have hrm : ((g.add_node x y lbl).2.remove_node (g.add_node x y lbl).1).nodes = g.nodes ∧
        ((g.add_node x y lbl).2.remove_node (g.add_node x y lbl).1).edges = g.edges := by
      rw [hid]
      unfold Graph.remove_node
      rw [hcont]
      simp only [if_true]
      constructor
      · show dictDelete ((g.add_node x y lbl).2.nodes) i = g.nodes
        rw [hnodes2]
        unfold dictDelete
        rw [List.filter_append]
        rw [List.filter_eq_self.mpr (by intro p hp; simpa using hfreshk p hp)]
        simp
      · show ((g.add_node x y lbl).2.edges).filter _ = g.edges
        rw [hedges2, List.filter_eq_self]
        intro e he
        have := hends e he
        simp only [Bool.and_eq_true, Bool.not_eq_true', beq_eq_false_iff_ne]
        exact ⟨Nat.ne_of_lt this.1, Nat.ne_of_lt this.2⟩
    refine ⟨hrm.1, hrm.2, ?_, by rw [hrm.2]⟩
    intro z
    unfold Graph.get_neighbors
    rw [hrm.2]
    have hdir : ((g.add_node x y lbl).2.remove_node (g.add_node x y lbl).1).directed =
        g.directed := by
      unfold Graph.remove_node
      split <;> rfl
    rw [hdir]

/-- Witness for `c8_round_trip_restores_graph` at a concrete input. -/
theorem c8_round_trip_restores_graph_witness :
    (gC7.add_edge 0 1 1).remove_edge 0 1 = gC7 ∧
      ((gC8.add_node 5 5 "").2.remove_node (gC8.add_node 5 5 "").1).nodes = gC8.nodes :=
  ⟨c8_round_trip_restores_graph.1 gC7 0 1 1 rfl rfl (by decide),
   (c8_round_trip_restores_graph.2 gC8 5 5 "" (by decide) (by decide)).1⟩

/-! ### Claim C9: ascending vertex ids and the default start vertex -/

/-- The iteration order of the vertex dictionary, as ids. -/
def nodeKeys (g : Graph) : List Nat := g.nodes.map Prod.fst

/-- The id invariant: iteration yields strictly ascending ids, all of them
below the counter. -/
def Graph.WFids (g : Graph) : Prop :=
  (nodeKeys g).Pairwise (· < ·) ∧ ∀ p ∈ g.nodes, p.1 < g.next_id

/-- `next(iter(self.graph.nodes))`: the first vertex of the iteration order,
used by BFS, DFS, Dijkstra and the Eulerian circuit construction when no
start vertex is supplied. -/
def autoStart (g : Graph) : Option Nat := g.nodes.head?.map Prod.fst

/-- C9: every graph mutation preserves the ascending-id invariant, and on a
non-empty graph satisfying it the implicitly chosen first vertex is the
minimum vertex id. -/
theorem c9_ids_ascending_and_first_is_min :
    (∀ d, (emptyGraph d).WFids) ∧
    (∀ (g : Graph) (x y : Int) (lbl : String), g.WFids → (g.add_node x y lbl).2.WFids) ∧
    (∀ (g : Graph) (u v w : Nat), g.WFids → (g.add_edge u v w).WFids) ∧
    (∀ (g : Graph) (i : Nat), g.WFids → (g.remove_node i).WFids) ∧
    (∀ (g : Graph) (u v : Nat), g.WFids → (g.remove_edge u v).WFids) ∧
    (∀ g : Graph, g.WFids → g.clear.WFids) ∧
    (∀ g : Graph, g.WFids → g.nodes ≠ [] →
      ∃ m, autoStart g = some m ∧ m ∈ nodeKeys g ∧ ∀ k ∈ nodeKeys g, m ≤ k) := by
  refine ⟨?_, ?_, ?_, ?_, ?_, ?_, ?_⟩
  · intro d; exact ⟨List.Pairwise.nil, by simp [emptyGraph]⟩
  · intro g x y lbl ⟨hpw, hlt⟩
    have hfreshk : ∀ p ∈ g.nodes, p.1 ≠ g.next_id := fun p hp => Nat.ne_of_lt (hlt p hp)
    have hnodes : (g.add_node x y lbl).2.nodes =
        g.nodes ++ [(g.next_id, mkNode g.next_id x y lbl)] := by
      simp [Graph.add_node, dictAssign_of_fresh _ _ _ hfreshk]
    constructor
    · rw [nodeKeys, hnodes, List.map_append, List.pairwise_append]
      refine ⟨hpw, by simp, ?_⟩
      intro a ha b hb
      simp only [List.map_cons, List.map_nil, List.mem_singleton] at hb
      subst hb
      obtain ⟨p, hp, rfl⟩ := List.mem_map.mp ha
      exact hlt p hp
    · intro p hp
      rw [hnodes] at hp
      have hnid : (g.add_node x y lbl).2.next_id = g.next_id + 1 := rfl
      rw [hnid]
      rcases List.mem_append.mp hp with h | h
      · exact Nat.lt_succ_of_lt (hlt p h)
      · simp only [List.mem_singleton] at h
        subst h
        exact Nat.lt_succ_self _
  · intro g u v w ⟨hpw, hlt⟩
    unfold Graph.add_edge
    split <;> exact ⟨hpw, hlt⟩
  · intro g i ⟨hpw, hlt⟩
    unfold Graph.remove_node
    split
    · constructor
      · refine List.Pairwise.sublist ?_ hpw
        exact List.Sublist.map _ (List.filter_sublist _)
      · intro p hp
        exact hlt p (List.mem_of_mem_filter hp)
    · exact ⟨hpw, hlt⟩
  · intro g u v ⟨hpw, hlt⟩
    exact ⟨hpw, hlt⟩
  · intro g _
    exact ⟨List.Pairwise.nil, by simp [Graph.clear]⟩
  · intro g ⟨hpw, _⟩ hne
    obtain ⟨p, rest, hcons⟩ := List.exists_cons_of_ne_nil hne
    refine ⟨p.1, ?_, ?_, ?_⟩
    · simp [autoStart, hcons]
    · simp [nodeKeys, hcons]
    · intro k hk
      rw [nodeKeys, hcons, List.map_cons] at hk
      rcases List.mem_cons.mp hk with h | h
      · exact h.ge
      · rw [nodeKeys, hcons] at hpw
        rw [List.map_cons, List.pairwise_cons] at hpw
        exact (hpw.1 k h).le

/-- Witness for `c9_ids_ascending_and_first_is_min` at a concrete input. -/
theorem c9_ids_ascending_and_first_is_min_witness :
    ∃ m, autoStart gC8 = some m ∧ m ∈ nodeKeys gC8 ∧ ∀ k ∈ nodeKeys gC8, m ≤ k :=
  c9_ids_ascending_and_first_is_min.2.2.2.2.2.2 gC8 ⟨by decide, by decide⟩ (by decide)

/-! ### Claim C6: Eulerian degree classification -/

/-- `defaultdict(int)` increment `m[k] += 1`. -/
def degBump (m : List (Nat × Nat)) (k : Nat) : List (Nat × Nat) :=
  dictAssign m k ((dictLookup m k).getD 0 + 1)

/-- `EulerianModule._compute_degrees`, undirected branch: every edge bumps
the count of both its endpoints. -/
def computeDegreesU (g : Graph) : List (Nat × Nat) :=
  g.edges.foldl (fun m e => degBump (degBump m e.source) e.target) []

/-- The classification branch the Eulerian analysis reports. -/
inductive EulerClass where
  | emptyG
  | noEdges
  | circuit
  | path
  | neither
deriving DecidableEq

/-- `EulerianModule.run`: the reported classification.  The undirected
branch counts odd entries of the computed degree dictionary; the directed
branch counts out-minus-in imbalances over all vertices. -/
def eulerianClass (g : Graph) : EulerClass :=
  if g.nodes = [] then .emptyG
  else if g.edges = [] then .noEdges
  else if g.directed then
    let ind := g.edges.foldl (fun m e => degBump m e.target) []
    let outd := g.edges.foldl (fun m e => degBump m e.source) []
    let diffs := g.nodes.map (fun p =>
      (Int.ofNat ((dictLookup outd p.1).getD 0)) - Int.ofNat ((dictLookup ind p.1).getD 0))
    let startc := diffs.countP (fun d => d == 1)
    let endc := diffs.countP (fun d => d == -1)
    let other := diffs.countP (fun d => !(d == 0) && !(d == 1) && !(d == -1))
    if startc == 0 && endc == 0 && other == 0 then .circuit
    else if startc == 1 && endc == 1 && other == 0 then .path
    else .neither
  else
    let degs := computeDegreesU g
    let odd := (degs.filter (fun p => p.2 % 2 == 1)).length
    if odd == 0 then .circuit else if odd == 2 then .path else .neither

/-- The degree of a vertex in the claim's sense: every incident edge
endpoint counts, so parallel edges count twice and a self-loop adds two. -/
def degreeOf (g : Graph) (v : Nat) : Nat :=
  (g.edges.countP (fun e => e.source == v)) + (g.edges.countP (fun e => e.target == v))

/-- The number of graph vertices of odd degree. -/
def oddVertexCount (g : Graph) : Nat :=
  ((nodeKeys g).filter (fun v => degreeOf g v % 2 == 1)).length

/-- The multiset of edge endpoints, in edge order. -/
def edgeEnds (g : Graph) : List Nat :=
  g.edges.flatMap (fun e => [e.source, e.target])

theorem dictContains_iff_mem_keys {β : Type} (m : List (Nat × β)) (k : Nat) :
    dictContains m k = true ↔ k ∈ m.map Prod.fst := by
  unfold dictContains
  rw [List.any_eq_true]
  constructor
  · rintro ⟨p, hp, hpk⟩
    exact List.mem_map.mpr ⟨p, hp, by simpa using hpk⟩
  · intro h
    obtain ⟨p, hp, hpk⟩ := List.mem_map.mp h
    exact ⟨p, hp, by simpa using hpk⟩

theorem degBump_lookup (m : List (Nat × Nat)) (k j : Nat) :
    (dictLookup (degBump m j) k).getD 0 =
      (dictLookup m k).getD 0 + (if j = k then 1 else 0) := by
  unfold degBump
  by_cases h : j = k
  · subst h
    rw [dictLookup_assign_self]
    simp
  · rw [dictLookup_assign_ne _ _ _ _ (fun hc => h hc.symm)]
    simp [h]

theorem foldl_degBump_lookup (l : List Nat) (m : List (Nat × Nat)) (k : Nat) :
    (dictLookup (l.foldl degBump m) k).getD 0 = (dictLookup m k).getD 0 + l.count k := by
  induction l generalizing m with
  | nil => simp
  | cons a l ih =>
    rw [List.foldl_cons, ih, degBump_lookup, List.count_cons]
    by_cases h : a = k
    · simp [h]
      omega
    · simp [h, show (a == k) = false by simpa using h]

theorem foldl_degBump_keys_nodup (l : List Nat) (m : List (Nat × Nat))
    (h : (m.map Prod.fst).Nodup) : ((l.foldl degBump m).map Prod.fst).Nodup := by
  induction l generalizing m with
  | nil => exact h
  | cons a l ih => exact ih _ (dictAssign_keys_nodup _ _ _ h)

theorem foldl_degBump_keys_mem (l : List Nat) (m : List (Nat × Nat)) (k : Nat) :
    k ∈ (l.foldl degBump m).map Prod.fst ↔ k ∈ m.map Prod.fst ∨ k ∈ l := by
  induction l generalizing m with
  | nil => simp
  | cons a l ih =>
    rw [List.foldl_cons, ih]
    have hkeys : (degBump m a).map Prod.fst =
        if dictContains m a then m.map Prod.fst else m.map Prod.fst ++ [a] := dictAssign_keys _ _ _
    rw [hkeys]
    by_cases h : dictContains m a = true
    · rw [if_pos h]
      have ha : a ∈ m.map Prod.fst := (dictContains_iff_mem_keys m a).mp h
      constructor
      · rintro (hk | hk)
        · exact Or.inl hk
        · exact Or.inr (List.mem_cons_of_mem _ hk)
      · rintro (hk | hk)
        · exact Or.inl hk
        · rcases List.mem_cons.mp hk with h' | h'
          · exact Or.inl (h' ▸ ha)
          · exact Or.inr h'
    · rw [if_neg h]
      simp only [List.mem_append, List.mem_singleton, List.mem_cons]
      tauto

theorem computeDegreesU_eq_fold_ends (g : Graph) (m : List (Nat × Nat)) :
    g.edges.foldl (fun m e => degBump (degBump m e.source) e.target) m =
      (edgeEnds g).foldl degBump m := by
  suffices h : ∀ (es : List Edge) (m : List (Nat × Nat)),
      es.foldl (fun m e => degBump (degBump m e.source) e.target) m =
        (es.flatMap (fun e => [e.source, e.target])).foldl degBump m by
    exact h g.edges m
  intro es
  induction es with
  | nil => intro m; rfl
  | cons e es ih =>
    intro m
    rw [List.foldl_cons, ih, List.flatMap_cons, List.foldl_append]
    rfl

theorem count_edgeEnds (g : Graph) (k : Nat) : (edgeEnds g).count k = degreeOf g k := by
  unfold edgeEnds degreeOf
  induction g.edges with
  | nil => rfl
  | cons e es ih =>
    rw [List.flatMap_cons, List.count_append, ih, List.countP_cons, List.countP_cons]
    have : List.count k [e.source, e.target] =
        (if e.source == k then 1 else 0) + (if e.target == k then 1 else 0) := by
      simp [List.count_cons]
      omega
    rw [this]
    omega

theorem computeDegreesU_entry (g : Graph) (p : Nat × Nat) (hp : p ∈ computeDegreesU g) :
    p.2 = degreeOf g p.1 := by
  have hnd : ((computeDegreesU g).map Prod.fst).Nodup := by
    unfold computeDegreesU
    rw [computeDegreesU_eq_fold_ends]
    exact foldl_degBump_keys_nodup _ _ (by simp)
  have hlk := dictLookup_of_mem_nodup _ p hnd hp
  have hval : (dictLookup (computeDegreesU g) p.1).getD 0 = degreeOf g p.1 := by
    unfold computeDegreesU
    rw [computeDegreesU_eq_fold_ends, foldl_degBump_lookup, count_edgeEnds]
    simp [dictLookup]
  rw [hlk] at hval
  simpa using hval

/-- C6: on a non-empty undirected graph with at least one edge (and edges
joining existing vertices, which every graph built through `add_edge`
satisfies), the Eulerian analysis reports a circuit iff no vertex has odd
degree, a path iff exactly two vertices have odd degree, and neither
otherwise. -/
theorem c6_eulerian_odd_degree_classification (g : Graph)
    (hdir : g.directed = false) (hn : g.nodes ≠ []) (he : g.edges ≠ [])
    (hwf : ∀ e ∈ g.edges, g.containsNode e.source = true ∧ g.containsNode e.target = true)
    (hnd : (nodeKeys g).Nodup) :
    (eulerianClass g = .circuit ↔ oddVertexCount g = 0) ∧
    (eulerianClass g = .path ↔ oddVertexCount g = 2) ∧
    (eulerianClass g = .neither ↔ (oddVertexCount g ≠ 0 ∧ oddVertexCount g ≠ 2)) := by
  have hkeysnd : ((computeDegreesU g).map Prod.fst).Nodup := by
    unfold computeDegreesU
    rw [computeDegreesU_eq_fold_ends]
    exact foldl_degBump_keys_nodup _ _ (by simp)
  have hodd : ((computeDegreesU g).filter (fun p => p.2 % 2 == 1)).length =
      oddVertexCount g := by
    have hfc : (computeDegreesU g).filter (fun p => p.2 % 2 == 1) =
        (computeDegreesU g).filter (fun p => degreeOf g p.1 % 2 == 1) := by
      apply List.filter_congr
      intro p hp
      rw [computeDegreesU_entry g p hp]
    rw [hfc]
    have hmap : ((computeDegreesU g).filter (fun p => degreeOf g p.1 % 2 == 1)).length =
        (((computeDegreesU g).map Prod.fst).filter (fun v => degreeOf g v % 2 == 1)).length := by
      rw [List.filter_map, List.length_map]
      rfl
    rw [hmap]
    apply List.Perm.length_eq
    rw [List.perm_ext_iff_of_nodup (hkeysnd.filter _) (hnd.filter _)]
    intro v
    rw [List.mem_filter, List.mem_filter]
    constructor
    · rintro ⟨hv, hoddv⟩
      refine ⟨?_, hoddv⟩
      have hv' : v ∈ edgeEnds g := by
        have := (foldl_degBump_keys_mem (edgeEnds g) [] v)
        rw [← computeDegreesU_eq_fold_ends] at this
        rcases this.mp hv with h | h
        · simp at h
        · exact h
      obtain ⟨e, he', hve⟩ := List.mem_flatMap.mp hv'
      rcases List.mem_cons.mp hve with h' | h'
      · subst h'
        exact (dictContains_iff_mem_keys _ _).mp (hwf e he').1
      · simp only [List.mem_singleton] at h'
        subst h'
        exact (dictContains_iff_mem_keys _ _).mp (hwf e he').2
    · rintro ⟨hv, hoddv⟩
      refine ⟨?_, hoddv⟩
      have hpos : 0 < degreeOf g v := by
        rcases Nat.eq_zero_or_pos (degreeOf g v) with h | h
        · rw [h] at hoddv
          simp at hoddv
        · exact h
      have hv' : v ∈ edgeEnds g := by
        rw [← count_edgeEnds] at hpos
        exact List.count_pos_iff.mp hpos
      have := (foldl_degBump_keys_mem (edgeEnds g) [] v)
      rw [← computeDegreesU_eq_fold_ends] at this
      exact this.mpr (Or.inr hv')
  unfold eulerianClass
  rw [if_neg hn, if_neg he, hdir]
  simp only [Bool.false_eq_true, if_false, hodd]
  set N := oddVertexCount g with hN
  by_cases h0 : N = 0
  · simp [h0]
  · by_cases h2 : N = 2
    · simp [h0, h2]
    · simp [h0, h2, show (N == 0) = false by simpa using h0,
        show (N == 2) = false by simpa using h2]

/-- A triangle used as the Eulerian witness graph: all degrees are 2. -/
def gC6 : Graph :=
  let g1 := ((emptyGraph false).add_node 0 0 "").2
  let g2 := (g1.add_node 1 1 "").2
  let g3 := (g2.add_node 2 2 "").2
  ((g3.add_edge 0 1 1).add_edge 1 2 1).add_edge 2 0 1

/-- Witness for `c6_eulerian_odd_degree_classification` at a concrete
input. -/
theorem c6_eulerian_odd_degree_classification_witness :
    (eulerianClass gC6 = .circuit ↔ oddVertexCount gC6 = 0) ∧
    (eulerianClass gC6 = .path ↔ oddVertexCount gC6 = 2) ∧
    (eulerianClass gC6 = .neither ↔ (oddVertexCount gC6 ≠ 0 ∧ oddVertexCount gC6 ≠ 2)) :=
  c6_eulerian_odd_degree_classification gC6 rfl (by decide) (by decide)
    (by decide) (by decide)

/-! ### Claim C5: BFS and DFS traversal -/

/-- Python `set.add`: appending is a no-op when the element is present, so
the list stays duplicate-free. -/
def setAdd (s : List Nat) (x : Nat) : List Nat :=
  if s.contains x then s else s ++ [x]

/-- Every vertex id that can ever be visited: the node keys together with
all edge endpoints (neighbor lists only ever produce edge endpoints). -/
def Graph.vertIds (g : Graph) : List Nat :=
  g.nodes.map Prod.fst ++ edgeEnds g

/-- Number of ids of `vertIds` not yet visited; the termination measure of
the traversals. -/
def unvisCount (g : Graph) (visited : List Nat) : Nat :=
  (g.vertIds.dedup.filter (fun x => !visited.contains x)).length

/-- One step of the traversal relation: `y` occurs in the neighbor list of
`x`. -/
def stepRel (g : Graph) (x y : Nat) : Prop := y ∈ g.get_neighbors x

/-- Reachability along neighbor lists, the notion BFS/DFS explore. -/
def Reach (g : Graph) (s v : Nat) : Prop := Relation.ReflTransGen (stepRel g) s v

/-- The inner `for neighbor in ...` loop of `BFSModule.run`: each unvisited
neighbor is marked visited the moment it is enqueued; returns the visited
set and the enqueued nodes in order. -/
def bfsEnqueue (visited : List Nat) : List Nat → List Nat × List Nat
  | [] => (visited, [])
  | n :: ns =>
    if visited.contains n then bfsEnqueue visited ns
    else
      let r := bfsEnqueue (visited ++ [n]) ns
      (r.1, n :: r.2)

/-- The `while queue` loop of `BFSModule.run`.  `fuel` bounds the number of
iterations; `none` reports exhaustion (the entry point always supplies
enough). -/
def bfsLoop (g : Graph) : Nat → List Nat → List Nat → List Nat →
    Option (List Nat × List Nat)
  | 0, queue, visited, order => if queue = [] then some (visited, order) else none
  | fuel + 1, queue, visited, order =>
    match queue with
    | [] => some (visited, order)
    | node :: rest =>
      let r := bfsEnqueue visited (g.get_neighbors node)
      bfsLoop g fuel (rest ++ r.2) r.1 (order ++ [node])

/-- Iteration bound for the BFS loop. -/
def bfsFuel (g : Graph) : Nat := 2 * g.vertIds.dedup.length + 2

/-- Outcome of a traversal run (`BFSModule.run` / `DFSModule.run`): the
formatted report lists the visitation order and `len(visited)` out of
`len(self.graph.nodes)`. -/
inductive TravResult where
  | emptyG
  | badStart (s : Nat)
  | ok (order : List Nat) (visitedCount : Nat) (totalNodes : Nat)
deriving DecidableEq

/-- `BFSModule.run`. -/
def bfsRun (g : Graph) (start? : Option Nat) : Option TravResult :=
  if g.nodes = [] then some .emptyG
  else
    let start := match start? with
      | none => (autoStart g).getD 0
      | some s => s
    if !(g.containsNode start) then some (.badStart start)
    else
      match bfsLoop g (bfsFuel g) [start] [start] [] with
      | none => none
      | some (visited, order) => some (.ok order visited.length g.nodes.length)

mutual

/-- `DFSModule.run`'s recursive `dfs`: mark visited, record in the order,
then recurse into each unvisited neighbor.  `fuel` bounds the recursion
depth. -/
def dfsVisit (g : Graph) : Nat → List Nat → List Nat → Nat →
    Option (List Nat × List Nat)
  | 0, _, _, _ => none
  | fuel + 1, visited, order, node =>
    dfsNbrs g fuel (setAdd visited node) (order ++ [node]) (g.get_neighbors node)
termination_by fuel _ _ _ => (fuel, 0)

/-- The `for neighbor in ...` loop inside `dfs`. -/
def dfsNbrs (g : Graph) : Nat → List Nat → List Nat → List Nat →
    Option (List Nat × List Nat)
  | _, visited, order, [] => some (visited, order)
  | fuel, visited, order, n :: ns =>
    if visited.contains n then dfsNbrs g fuel visited order ns
    else
      match dfsVisit g fuel visited order n with
      | none => none
      | some (v', o') => dfsNbrs g fuel v' o' ns
termination_by fuel _ _ ns => (fuel, ns.length + 1)

end

/-- Recursion-depth bound for DFS. -/
def dfsFuel (g : Graph) : Nat := g.vertIds.dedup.length + 1

/-- `DFSModule.run`. -/
def dfsRun (g : Graph) (start? : Option Nat) : Option TravResult :=
  if g.nodes = [] then some .emptyG
  else
    let start := match start? with
      | none => (autoStart g).getD 0
      | some s => s
    if !(g.containsNode start) then some (.badStart start)
    else
      match dfsVisit g (dfsFuel g) [] [] start with
      | none => none
      | some (visited, order) => some (.ok order visited.length g.nodes.length)

theorem contains_iff_mem (l : List Nat) (a : Nat) : l.contains a = true ↔ a ∈ l := by
  simp

theorem nbrs_subset_vertIds (g : Graph) (x y : Nat) (h : y ∈ g.get_neighbors x) :
    y ∈ g.vertIds := by
  unfold Graph.get_neighbors at h
  obtain ⟨e, he, hey⟩ := List.mem_filterMap.mp h
  unfold Graph.vertIds
  rw [List.mem_append]
  right
  unfold edgeEnds
  rw [List.mem_flatMap]
  refine ⟨e, he, ?_⟩
  by_cases hs : e.source = x
  · rw [if_pos hs] at hey
    simp only [Option.some_inj] at hey
    simp [hey.symm]
  · rw [if_neg hs] at hey
    by_cases ht : (!g.directed && e.target == x) = true
    · rw [if_pos ht] at hey
      simp only [Option.some_inj] at hey
      simp [hey.symm]
    · rw [if_neg ht] at hey
      exact absurd hey (by simp)

theorem unvisCount_append_le (g : Graph) (v w : List Nat) :
    unvisCount g (v ++ w) ≤ unvisCount g v := by
  unfold unvisCount
  rw [← List.countP_eq_length_filter, ← List.countP_eq_length_filter]
  apply List.countP_mono_left
  intro a _ ha
  simp only [Bool.not_eq_true'] at ha ⊢
  rw [← Bool.not_eq_true] at ha ⊢
  intro hc
  exact ha ((contains_iff_mem _ _).mpr (List.mem_append_left _ ((contains_iff_mem _ _).mp hc)))

theorem unvisCount_append_one (g : Graph) (v : List Nat) (x : Nat)
    (hx : x ∈ g.vertIds) (hnv : ¬ v.contains x = true) :
    unvisCount g (v ++ [x]) + 1 ≤ unvisCount g v := by
  unfold unvisCount
  rw [← List.countP_eq_length_filter, ← List.countP_eq_length_filter]
  have hxd : x ∈ g.vertIds.dedup := List.mem_dedup.mpr hx
  have hperm := List.perm_cons_erase hxd
  rw [List.Perm.countP_eq _ hperm, List.Perm.countP_eq _ hperm, List.countP_cons,
    List.countP_cons]
  have h1 : (!(v ++ [x]).contains x) = false := by
    simp
  have h2 : (!v.contains x) = true := by
    simpa using hnv
  rw [h1, h2, if_neg Bool.false_ne_true, if_pos rfl]
  have hle : List.countP (fun z => !(v ++ [x]).contains z) (g.vertIds.dedup.erase x) ≤
      List.countP (fun z => !v.contains z) (g.vertIds.dedup.erase x) := by
    apply List.countP_mono_left
    intro a _ ha
    simp only [Bool.not_eq_true'] at ha ⊢
    rw [← Bool.not_eq_true] at ha ⊢
    intro hc
    exact ha ((contains_iff_mem _ _).mpr
      (List.mem_append_left _ ((contains_iff_mem _ _).mp hc)))
  omega

theorem unvisCount_append_many (g : Graph) (w : List Nat) :
    ∀ v : List Nat, w.Nodup → (∀ x ∈ w, x ∈ g.vertIds ∧ ¬ v.contains x = true) →
      unvisCount g (v ++ w) + w.length ≤ unvisCount g v := by
  induction w with
  | nil => intro v _ _; simp
  | cons x w ih =>
    intro v hnd hmem
    rw [List.nodup_cons] at hnd
    have hx := hmem x (List.mem_cons_self _ _)
    have hstep := unvisCount_append_one g v x hx.1 hx.2
    have hrest : unvisCount g ((v ++ [x]) ++ w) + w.length ≤ unvisCount g (v ++ [x]) := by
      apply ih (v ++ [x]) hnd.2
      intro y hy
      have hyy := hmem y (List.mem_cons_of_mem _ hy)
      refine ⟨hyy.1, ?_⟩
      intro hc
      rcases List.mem_append.mp ((contains_iff_mem _ _).mp hc) with h | h
      · exact hyy.2 ((contains_iff_mem _ _).mpr h)
      · simp only [List.mem_singleton] at h
        exact hnd.1 (h ▸ hy)
    have hassoc : (v ++ [x]) ++ w = v ++ x :: w := by simp
    rw [hassoc] at hrest
    simp only [List.length_cons]
    omega

theorem bfsEnqueue_nil (visited : List Nat) : bfsEnqueue visited [] = (visited, []) := rfl

theorem bfsEnqueue_cons (visited : List Nat) (n : Nat) (ns : List Nat) :
    bfsEnqueue visited (n :: ns) =
      if visited.contains n then bfsEnqueue visited ns
      else ((bfsEnqueue (visited ++ [n]) ns).1, n :: (bfsEnqueue (visited ++ [n]) ns).2) := by
  rw [bfsEnqueue]

theorem bfsEnqueue_spec (visited : List Nat) (ns : List Nat) :
    (bfsEnqueue visited ns).1 = visited ++ (bfsEnqueue visited ns).2 ∧
    (∀ x ∈ (bfsEnqueue visited ns).2, x ∈ ns ∧ ¬ visited.contains x = true) ∧
    (bfsEnqueue visited ns).2.Nodup ∧
    (∀ y ∈ ns, y ∈ (bfsEnqueue visited ns).1) := by
  induction ns generalizing visited with
  | nil =>
    simp only [bfsEnqueue_nil]
    exact ⟨by simp, by simp, List.nodup_nil, by simp⟩
  | cons n ns ih =>
    by_cases hc : visited.contains n = true
    · have hun : bfsEnqueue visited (n :: ns) = bfsEnqueue visited ns := by
        rw [bfsEnqueue_cons, if_pos hc]
      rw [hun]
      obtain ⟨h1, h2, h3, h4⟩ := ih visited
      refine ⟨h1, fun x hx => ⟨List.mem_cons_of_mem _ (h2 x hx).1, (h2 x hx).2⟩, h3, ?_⟩
      intro y hy
      rcases List.mem_cons.mp hy with h | h
      · subst h
        rw [h1]
        exact List.mem_append_left _ ((contains_iff_mem _ _).mp hc)
      · exact h4 y h
    · have hun : bfsEnqueue visited (n :: ns) =
          ((bfsEnqueue (visited ++ [n]) ns).1, n :: (bfsEnqueue (visited ++ [n]) ns).2) := by
        rw [bfsEnqueue_cons, if_neg hc]
      rw [hun]
      obtain ⟨h1, h2, h3, h4⟩ := ih (visited ++ [n])
      constructor
      · show (bfsEnqueue (visited ++ [n]) ns).1 = visited ++ n :: _
        rw [h1]
        simp
      refine ⟨?_, ?_, ?_⟩
      · intro x hx
        rcases List.mem_cons.mp hx with h | h
        · subst h
          exact ⟨List.mem_cons_self _ _, hc⟩
        · obtain ⟨hin, hnc⟩ := h2 x h
          refine ⟨List.mem_cons_of_mem _ hin, ?_⟩
          intro hcx
          exact hnc ((contains_iff_mem _ _).mpr
            (List.mem_append_left _ ((contains_iff_mem _ _).mp hcx)))
      · rw [List.nodup_cons]
        refine ⟨?_, h3⟩
        intro hn
        obtain ⟨_, hnc⟩ := h2 n hn
        exact hnc ((contains_iff_mem _ _).mpr (List.mem_append_right _ (by simp)))
      · intro y hy
        rcases List.mem_cons.mp hy with h | h
        · subst h
          rw [h1]
          exact List.mem_append_left _ (List.mem_append_right _ (by simp))
        · exact h4 y h

theorem bfsLoop_succ_cons (g : Graph) (fuel node : Nat) (rest visited order : List Nat) :
    bfsLoop g (fuel + 1) (node :: rest) visited order =
      bfsLoop g fuel (rest ++ (bfsEnqueue visited (g.get_neighbors node)).2)
        (bfsEnqueue visited (g.get_neighbors node)).1 (order ++ [node]) := by
  rw [bfsLoop]

theorem bfsLoop_spec (g : Graph) (start : Nat) :
    ∀ (fuel : Nat) (queue visited order : List Nat),
      (order ++ queue).Perm visited →
      visited.Nodup →
      (∀ x ∈ visited, Reach g start x) →
      (∀ x ∈ order, ∀ y ∈ g.get_neighbors x, y ∈ visited) →
      2 * unvisCount g visited + queue.length < fuel →
      ∃ visited' order',
        bfsLoop g fuel queue visited order = some (visited', order') ∧
        visited'.Nodup ∧ order'.Perm visited' ∧
        (∀ x ∈ visited', Reach g start x) ∧
        (∀ x ∈ order', ∀ y ∈ g.get_neighbors x, y ∈ visited') ∧
        (∀ x ∈ visited, x ∈ visited') := by
  intro fuel
  induction fuel with
  | zero =>
    intro queue visited order _ _ _ _ hfuel
    exact absurd hfuel (Nat.not_lt_zero _)
  | succ fuel ih =>
    intro queue visited order hperm hnd hreach hclosed hfuel
    match queue with
    | [] =>
      refine ⟨visited, order, rfl, hnd, ?_, hreach, hclosed, fun x hx => hx⟩
      simpa using hperm
    | node :: rest =>
      obtain ⟨h1, h2, h3, h4⟩ := bfsEnqueue_spec visited (g.get_neighbors node)
      have hnodev : node ∈ visited :=
        hperm.subset (List.mem_append_right _ (List.mem_cons_self _ _))
      rw [bfsLoop_succ_cons g fuel node rest visited order, h1]
      set enq := (bfsEnqueue visited (g.get_neighbors node)).2 with henq
      have hpermnew : ((order ++ [node]) ++ (rest ++ enq)).Perm (visited ++ enq) := by
        rw [show ((order ++ [node]) ++ (rest ++ enq)) = (order ++ node :: rest) ++ enq by simp]
        exact hperm.append_right enq
      have hndnew : (visited ++ enq).Nodup := by
        rw [List.nodup_append]
        refine ⟨hnd, h3, ?_⟩
        intro a ha hb
        exact (h2 a hb).2 ((contains_iff_mem _ _).mpr ha)
      have hreachnew : ∀ x ∈ visited ++ enq, Reach g start x := by
        intro x hx
        rcases List.mem_append.mp hx with h | h
        · exact hreach x h
        · exact Relation.ReflTransGen.tail (hreach node hnodev) ((h2 x h).1)
      have hclosednew : ∀ x ∈ order ++ [node], ∀ y ∈ g.get_neighbors x, y ∈ visited ++ enq := by
        intro x hx y hy
        rcases List.mem_append.mp hx with h | h
        · exact List.mem_append_left _ (hclosed x h y hy)
        · simp only [List.mem_singleton] at h
          subst h
          have hmem := h4 y hy
          rw [h1] at hmem
          exact hmem
      have hfuelnew : 2 * unvisCount g (visited ++ enq) + (rest ++ enq).length < fuel := by
        have hmany := unvisCount_append_many g enq visited h3 (fun x hx =>
          ⟨nbrs_subset_vertIds g node x (h2 x hx).1, (h2 x hx).2⟩)
        rw [List.length_append]
        simp only [List.length_cons] at hfuel
        omega
      obtain ⟨v', o', hrun, hp1, hp2, hp3, hp4, hp5⟩ :=
        ih (rest ++ enq) (visited ++ enq) (order ++ [node]) hpermnew hndnew hreachnew
          hclosednew hfuelnew
      exact ⟨v', o', hrun, hp1, hp2, hp3, hp4,
        fun x hx => hp5 x (List.mem_append_left _ hx)⟩

theorem unvisCount_le_dedup (g : Graph) (v : List Nat) :
    unvisCount g v ≤ g.vertIds.dedup.length :=
  List.length_filter_le _ _

theorem dfsVisit_succ (g : Graph) (fuel : Nat) (visited order : List Nat) (node : Nat) :
    dfsVisit g (fuel + 1) visited order node =
      dfsNbrs g fuel (setAdd visited node) (order ++ [node]) (g.get_neighbors node) := by
  rw [dfsVisit]

theorem dfsNbrs_nil (g : Graph) (fuel : Nat) (visited order : List Nat) :
    dfsNbrs g fuel visited order [] = some (visited, order) := by
  rw [dfsNbrs]

theorem dfsNbrs_cons (g : Graph) (fuel : Nat) (visited order : List Nat) (n : Nat)
    (ns : List Nat) :
    dfsNbrs g fuel visited order (n :: ns) =
      if visited.contains n then dfsNbrs g fuel visited order ns
      else
        match dfsVisit g fuel visited order n with
        | none => none
        | some (v', o') => dfsNbrs g fuel v' o' ns := by
  rw [dfsNbrs]

theorem dfs_spec (g : Graph) : ∀ (fuel : Nat) (visited : List Nat) (node : Nat),
    visited.Nodup → ¬ visited.contains node = true → node ∈ g.vertIds →
    unvisCount g visited < fuel →
    ∃ Δ, dfsVisit g fuel visited visited node = some (visited ++ Δ, visited ++ Δ) ∧
      node ∈ Δ ∧ (visited ++ Δ).Nodup ∧
      (∀ x ∈ Δ, Relation.ReflTransGen (stepRel g) node x) ∧
      (∀ x ∈ Δ, ∀ y ∈ g.get_neighbors x, y ∈ visited ++ Δ) := by
  intro fuel
  induction fuel with
  | zero =>
    intro visited node _ _ _ hfuel
    exact absurd hfuel (Nat.not_lt_zero _)
  | succ fuel ih =>
    have hlist : ∀ (ns : List Nat) (visited : List Nat),
        visited.Nodup → (∀ n ∈ ns, n ∈ g.vertIds) → unvisCount g visited < fuel →
        ∃ Δ, dfsNbrs g fuel visited visited ns = some (visited ++ Δ, visited ++ Δ) ∧
          (visited ++ Δ).Nodup ∧
          (∀ x ∈ Δ, ∃ n ∈ ns, Relation.ReflTransGen (stepRel g) n x) ∧
          (∀ x ∈ Δ, ∀ y ∈ g.get_neighbors x, y ∈ visited ++ Δ) ∧
          (∀ n ∈ ns, n ∈ visited ++ Δ) := by
      intro ns
      induction ns with
      | nil =>
        intro visited hnd _ _
        refine ⟨[], ?_, ?_, by simp, by simp, by simp⟩
        · rw [dfsNbrs_nil]
          simp
        · simpa using hnd
      | cons n ns ihn =>
        intro visited hnd hvert hfuel
        by_cases hc : visited.contains n = true
        · rw [dfsNbrs_cons, if_pos hc]
          obtain ⟨Δ, heq, hnd', hreach, hclosed, hcover⟩ :=
            ihn visited hnd (fun m hm => hvert m (List.mem_cons_of_mem _ hm)) hfuel
          refine ⟨Δ, heq, hnd', ?_, hclosed, ?_⟩
          · intro x hx
            obtain ⟨m, hm, hr⟩ := hreach x hx
            exact ⟨m, List.mem_cons_of_mem _ hm, hr⟩
          · intro m hm
            rcases List.mem_cons.mp hm with h | h
            · subst h
              exact List.mem_append_left _ ((contains_iff_mem _ _).mp hc)
            · exact hcover m h
        · rw [dfsNbrs_cons, if_neg hc]
          obtain ⟨Δ₁, heq₁, hmem₁, hnd₁, hreach₁, hclosed₁⟩ :=
            ih visited n hnd hc (hvert n (List.mem_cons_self _ _))
              (lt_of_le_of_lt (Nat.le_refl _) hfuel)
          rw [heq₁]
          obtain ⟨Δ₂, heq₂, hnd₂, hreach₂, hclosed₂, hcover₂⟩ :=
            ihn (visited ++ Δ₁) hnd₁ (fun m hm => hvert m (List.mem_cons_of_mem _ hm))
              (lt_of_le_of_lt (unvisCount_append_le g visited Δ₁) hfuel)
          refine ⟨Δ₁ ++ Δ₂, ?_, ?_, ?_, ?_, ?_⟩
          · show dfsNbrs g fuel (visited ++ Δ₁) (visited ++ Δ₁) ns =
              some (visited ++ (Δ₁ ++ Δ₂), visited ++ (Δ₁ ++ Δ₂))
            rw [heq₂, List.append_assoc]
          · rw [← List.append_assoc]
            exact hnd₂
          · intro x hx
            rcases List.mem_append.mp hx with h | h
            · exact ⟨n, List.mem_cons_self _ _, hreach₁ x h⟩
            · obtain ⟨m, hm, hr⟩ := hreach₂ x h
              exact ⟨m, List.mem_cons_of_mem _ hm, hr⟩
          · intro x hx y hy
            rw [← List.append_assoc]
            rcases List.mem_append.mp hx with h | h
            · exact List.mem_append_left _ (hclosed₁ x h y hy)
            · exact hclosed₂ x h y hy
          · intro m hm
            rw [← List.append_assoc]
            rcases List.mem_cons.mp hm with h | h
            · subst h
              exact List.mem_append_left _ (List.mem_append_right _ hmem₁)
            · exact hcover₂ m h
    intro visited node hnd hc hvert hfuel
    rw [dfsVisit_succ]
    have hset : setAdd visited node = visited ++ [node] := by
      unfold setAdd
      rw [if_neg hc]
    rw [hset]
    have hnd' : (visited ++ [node]).Nodup := by
      rw [List.nodup_append]
      refine ⟨hnd, List.nodup_singleton _, ?_⟩
      intro a ha hb
      simp only [List.mem_singleton] at hb
      subst hb
      exact hc ((contains_iff_mem _ _).mpr ha)
    have hfuel' : unvisCount g (visited ++ [node]) < fuel := by
      have := unvisCount_append_one g visited node hvert hc
      omega
    obtain ⟨Δ, heq, hnd2, hreach, hclosed, hcover⟩ :=
      hlist (g.get_neighbors node) (visited ++ [node]) hnd'
        (fun m hm => nbrs_subset_vertIds g node m hm) hfuel'
    refine ⟨node :: Δ, ?_, List.mem_cons_self _ _, ?_, ?_, ?_⟩
    · rw [heq, List.append_assoc]
      rfl
    · rw [show visited ++ node :: Δ = (visited ++ [node]) ++ Δ by simp]
      exact hnd2
    · intro x hx
      rcases List.mem_cons.mp hx with h | h
      · subst h
        exact Relation.ReflTransGen.refl
      · obtain ⟨m, hm, hr⟩ := hreach x h
        exact Relation.ReflTransGen.head hm hr
    · intro x hx y hy
      rw [show visited ++ node :: Δ = (visited ++ [node]) ++ Δ by simp]
      rcases List.mem_cons.mp hx with h | h
      · subst h
        exact hcover y hy
      · exact hclosed x h y hy

/-- C5: on every graph and existing start vertex, the BFS visitation order
and the DFS visitation order are duplicate-free, enumerate exactly the
vertices reachable from the start along neighbor lists, and their length is
the visited count the result reports. -/
theorem c5_traversal_orders_nodup_reachable (g : Graph) (start : Nat)
    (hs : g.containsNode start = true) :
    (∃ ord vc, bfsRun g (some start) = some (.ok ord vc g.nodes.length) ∧
      ord.Nodup ∧ (∀ x, x ∈ ord ↔ Reach g start x) ∧ ord.length = vc) ∧
    (∃ ord vc, dfsRun g (some start) = some (.ok ord vc g.nodes.length) ∧
      ord.Nodup ∧ (∀ x, x ∈ ord ↔ Reach g start x) ∧ ord.length = vc) := by
  have hne : g.nodes ≠ [] := by
    intro hnil
    rw [Graph.containsNode, dictContains, hnil] at hs
    simp at hs
  have hstart_verts : start ∈ g.vertIds := by
    unfold Graph.vertIds
    apply List.mem_append_left
    exact (dictContains_iff_mem_keys _ _).mp hs
  constructor
  · -- BFS
    obtain ⟨v', o', hrun, hp1, hp2, hp3, hp4, hp5⟩ :=
      bfsLoop_spec g start (bfsFuel g) [start] [start] []
        (by simp) (List.nodup_singleton _)
        (by
          intro x hx
          simp only [List.mem_singleton] at hx
          subst hx
          exact Relation.ReflTransGen.refl)
        (by simp)
        (by
          have := unvisCount_le_dedup g [start]
          unfold bfsFuel
          simp only [List.length_cons, List.length_nil]
          omega)
    have hbfs : bfsRun g (some start) = some (.ok o' v'.length g.nodes.length) := by
      unfold bfsRun
      rw [if_neg hne]
      simp only [hs, Bool.not_true, Bool.false_eq_true, if_false, hrun]
    refine ⟨o', v'.length, hbfs, (hp2.nodup_iff).mpr hp1, ?_, hp2.length_eq⟩
    intro x
    constructor
    · intro hx
      exact hp3 x (hp2.subset hx)
    · intro hx
      have hxv : x ∈ v' := by
        induction hx with
        | refl => exact hp5 start (by simp)
        | tail hab hbc ihx =>
          rename_i b c
          exact hp4 b (hp2.symm.subset ihx) c hbc
      exact hp2.symm.subset hxv
  · -- DFS
    obtain ⟨Δ, heq, hmem, hnd, hreach, hclosed⟩ :=
      dfs_spec g (dfsFuel g) [] start List.nodup_nil (by simp) hstart_verts
        (by
          have := unvisCount_le_dedup g []
          unfold dfsFuel
          omega)
    simp only [List.nil_append] at heq hnd hclosed
    have hdfs : dfsRun g (some start) = some (.ok Δ Δ.length g.nodes.length) := by
      unfold dfsRun
      rw [if_neg hne]
      simp only [hs, Bool.not_true, Bool.false_eq_true, if_false, heq]
    refine ⟨Δ, Δ.length, hdfs, hnd, ?_, rfl⟩
    intro x
    constructor
    · intro hx
      exact hreach x hx
    · intro hx
      induction hx with
      | refl => exact hmem
      | tail hab hbc ihx =>
        rename_i b c
        exact hclosed b ihx c hbc

/-- Witness for `c5_traversal_orders_nodup_reachable` at a concrete input. -/
theorem c5_traversal_orders_nodup_reachable_witness :
    (∃ ord vc, bfsRun gC6 (some 0) = some (.ok ord vc gC6.nodes.length) ∧
      ord.Nodup ∧ (∀ x, x ∈ ord ↔ Reach gC6 0 x) ∧ ord.length = vc) ∧
    (∃ ord vc, dfsRun gC6 (some 0) = some (.ok ord vc gC6.nodes.length) ∧
      ord.Nodup ∧ (∀ x, x ∈ ord ↔ Reach gC6 0 x) ∧ ord.length = vc) :=
  c5_traversal_orders_nodup_reachable gC6 0 rfl

/-! ### Claims C2 and C3: connected components -/

/-- The `for neighbor in ...` loop inside the components `dfs`; the
recursive call is passed in so that the whole recursion is structural in
the fuel. -/
def ccDfsList (rec : List (Nat × Nat) → Nat → Option (List (Nat × Nat))) :
    List (Nat × Nat) → List Nat → Option (List (Nat × Nat))
  | comps, [] => some comps
  | comps, n :: ns =>
    if dictContains comps n then ccDfsList rec comps ns
    else
      match rec comps n with
      | none => none
      | some comps' => ccDfsList rec comps' ns

/-- `ConnectedComponentsModule.run`'s recursive `dfs(node, comp_id)`:
record the component of the node, then recurse into every neighbor not yet
assigned.  `fuel` bounds the recursion depth. -/
def ccDfs (g : Graph) (comp_id : Nat) : Nat → List (Nat × Nat) → Nat →
    Option (List (Nat × Nat))
  | 0, _, _ => none
  | fuel + 1, comps, node =>
    ccDfsList (fun c n => ccDfs g comp_id fuel c n) (dictAssign comps node comp_id)
      (g.get_neighbors node)

/-- Recursion-depth bound for the components DFS. -/
def ccFuel (g : Graph) : Nat := g.vertIds.dedup.length + 1

/-- The outer `for node_id in self.graph.nodes` loop assigning component
numbers in discovery order. -/
def ccOuter (g : Graph) : List Nat → List (Nat × Nat) → Nat →
    Option (List (Nat × Nat) × Nat)
  | [], comps, k => some (comps, k)
  | nid :: rest, comps, k =>
    if dictContains comps nid then ccOuter g rest comps k
    else
      match ccDfs g k (ccFuel g) comps nid with
      | none => none
      | some comps' => ccOuter g rest comps' (k + 1)

/-- The vertex → component-number map the module computes, with the number
of components. -/
def ccComponents (g : Graph) : Option (List (Nat × Nat) × Nat) :=
  ccOuter g (g.nodes.map Prod.fst) [] 0

/-- The fixed component palette (hex values; the display names that
accompany them in the source are presentation-only). -/
def ccPalette : List String :=
  ["#FF6B6B", "#4ECDC4", "#45B7D1", "#FFA07A", "#98D8C8",
   "#F7DC6F", "#BB8FCE", "#85C1E2", "#F8B739", "#52B788"]

/-- Net effect of the recoloring loop of `ConnectedComponentsModule.run`:
every graph vertex present in the components map has its color overwritten
with its component's palette color (`colors[comp_id % len(colors)]`). -/
def ccApplyColors (nodes : List (Nat × Node)) (comps : List (Nat × Nat)) :
    List (Nat × Node) :=
  nodes.map (fun p =>
    match dictLookup comps p.1 with
    | some c => (p.1, { p.2 with color := ccPalette.getD (c % ccPalette.length) "" })
    | none => p)

/-- `ConnectedComponentsModule.run`: returns the mutated graph (the module
recolors vertices in place) and the components map. -/
def ccRun (g : Graph) : Option (Graph × List (Nat × Nat)) :=
  if g.nodes = [] then some (g, [])
  else
    match ccComponents g with
    | none => none
    | some (comps, _) => some ({ g with nodes := ccApplyColors g.nodes comps }, comps)

theorem ccDfs_spec (g : Graph) (comp_id : Nat) :
    ∀ (fuel : Nat) (comps : List (Nat × Nat)) (node : Nat),
      ((comps.map Prod.fst).Nodup) → ¬ dictContains comps node = true →
      node ∈ g.vertIds → unvisCount g (comps.map Prod.fst) < fuel →
      ∃ Δ : List (Nat × Nat),
        ccDfs g comp_id fuel comps node = some (comps ++ Δ) ∧
        (∀ p ∈ Δ, p.2 = comp_id) ∧
        node ∈ Δ.map Prod.fst ∧
        ((comps ++ Δ).map Prod.fst).Nodup ∧
        (∀ x ∈ Δ.map Prod.fst, Relation.ReflTransGen (stepRel g) node x) ∧
        (∀ x ∈ Δ.map Prod.fst, ∀ y ∈ g.get_neighbors x,
          y ∈ (comps ++ Δ).map Prod.fst) := by
  intro fuel
  induction fuel with
  | zero =>
    intro comps node _ _ _ hfuel
    exact absurd hfuel (Nat.not_lt_zero _)
  | succ fuel ih =>
    have hlist : ∀ (ns : List Nat) (comps : List (Nat × Nat)),
        ((comps.map Prod.fst).Nodup) → (∀ n ∈ ns, n ∈ g.vertIds) →
        unvisCount g (comps.map Prod.fst) < fuel →
        ∃ Δ : List (Nat × Nat),
          ccDfsList (fun c n => ccDfs g comp_id fuel c n) comps ns = some (comps ++ Δ) ∧
          (∀ p ∈ Δ, p.2 = comp_id) ∧
          ((comps ++ Δ).map Prod.fst).Nodup ∧
          (∀ x ∈ Δ.map Prod.fst, ∃ n ∈ ns, Relation.ReflTransGen (stepRel g) n x) ∧
          (∀ x ∈ Δ.map Prod.fst, ∀ y ∈ g.get_neighbors x,
            y ∈ (comps ++ Δ).map Prod.fst) ∧
          (∀ n ∈ ns, n ∈ (comps ++ Δ).map Prod.fst) := by
      intro ns
      induction ns with
      | nil =>
        intro comps hnd _ _
        refine ⟨[], by rw [ccDfsList]; simp, by simp, by simpa using hnd, by simp, by simp,
          by simp⟩
      | cons n ns ihn =>
        intro comps hnd hvert hfuel
        by_cases hc : dictContains comps n = true
        · rw [ccDfsList, if_pos hc]
          obtain ⟨Δ, heq, hval, hnd', hreach, hclosed, hcover⟩ :=
            ihn comps hnd (fun m hm => hvert m (List.mem_cons_of_mem _ hm)) hfuel
          refine ⟨Δ, heq, hval, hnd', ?_, hclosed, ?_⟩
          · intro x hx
            obtain ⟨m, hm, hr⟩ := hreach x hx
            exact ⟨m, List.mem_cons_of_mem _ hm, hr⟩
          · intro m hm
            rcases List.mem_cons.mp hm with h | h
            · subst h
              rw [List.map_append]
              exact List.mem_append_left _ ((dictContains_iff_mem_keys _ _).mp hc)
            · exact hcover m h
        · rw [ccDfsList, if_neg hc]
          obtain ⟨Δ₁, heq₁, hval₁, hmem₁, hnd₁, hreach₁, hclosed₁⟩ :=
            ih comps n hnd hc (hvert n (List.mem_cons_self _ _)) hfuel
          rw [heq₁]
          have hnd₁' : (((comps ++ Δ₁).map Prod.fst).Nodup) := hnd₁
          obtain ⟨Δ₂, heq₂, hval₂, hnd₂, hreach₂, hclosed₂, hcover₂⟩ :=
            ihn (comps ++ Δ₁) hnd₁' (fun m hm => hvert m (List.mem_cons_of_mem _ hm))
              (lt_of_le_of_lt (by
                rw [List.map_append]
                exact unvisCount_append_le g _ _) hfuel)
          refine ⟨Δ₁ ++ Δ₂, ?_, ?_, ?_, ?_, ?_, ?_⟩
          · show ccDfsList _ (comps ++ Δ₁) ns = some (comps ++ (Δ₁ ++ Δ₂))
            rw [heq₂, List.append_assoc]
          · intro p hp
            rcases List.mem_append.mp hp with h | h
            · exact hval₁ p h
            · exact hval₂ p h
          · rw [← List.append_assoc]
            exact hnd₂
          · intro x hx
            rw [List.map_append, List.mem_append] at hx
            rcases hx with h | h
            · exact ⟨n, List.mem_cons_self _ _, hreach₁ x h⟩
            · obtain ⟨m, hm, hr⟩ := hreach₂ x h
              exact ⟨m, List.mem_cons_of_mem _ hm, hr⟩
          · intro x hx y hy
            rw [← List.append_assoc]
            rw [List.map_append, List.mem_append] at hx
            rcases hx with h | h
            · rw [List.map_append]
              exact List.mem_append_left _ (hclosed₁ x h y hy)
            · exact hclosed₂ x h y hy
          · intro m hm
            rw [← List.append_assoc]
            rcases List.mem_cons.mp hm with h | h
            · subst h
              rw [List.map_append, List.map_append]
              exact List.mem_append_left _ (List.mem_append_right _ hmem₁)
            · exact hcover₂ m h
    intro comps node hnd hc hvert hfuel
    have hfresh : ∀ p ∈ comps, p.1 ≠ node := by
      intro p hp hpk
      exact hc ((dictContains_iff_mem_keys _ _).mpr (List.mem_map.mpr ⟨p, hp, hpk⟩))
    have hassign : dictAssign comps node comp_id = comps ++ [(node, comp_id)] :=
      dictAssign_of_fresh _ _ _ hfresh
    have hrw : ccDfs g comp_id (fuel + 1) comps node =
        ccDfsList (fun c n => ccDfs g comp_id fuel c n) (comps ++ [(node, comp_id)])
          (g.get_neighbors node) := by
      rw [ccDfs, hassign]
    rw [hrw]
    have hkeys1 : (comps ++ [(node, comp_id)]).map Prod.fst =
        comps.map Prod.fst ++ [node] := by
      rw [List.map_append]
      rfl
    have hnd' : (((comps ++ [(node, comp_id)]).map Prod.fst).Nodup) := by
      rw [hkeys1, List.nodup_append]
      refine ⟨hnd, List.nodup_singleton _, ?_⟩
      intro a ha hb
      simp only [List.mem_singleton] at hb
      subst hb
      exact hc ((dictContains_iff_mem_keys _ _).mpr ha)
    have hncont : ¬ (comps.map Prod.fst).contains node = true := by
      intro h
      exact hc ((dictContains_iff_mem_keys _ _).mpr ((contains_iff_mem _ _).mp h))
    have hfuel' : unvisCount g ((comps ++ [(node, comp_id)]).map Prod.fst) < fuel := by
      rw [hkeys1]
      have := unvisCount_append_one g (comps.map Prod.fst) node hvert hncont
      omega
    obtain ⟨Δ, heq, hval, hnd2, hreach, hclosed, hcover⟩ :=
      hlist (g.get_neighbors node) (comps ++ [(node, comp_id)]) hnd'
        (fun m hm => nbrs_subset_vertIds g node m hm) hfuel'
    refine ⟨(node, comp_id) :: Δ, ?_, ?_, by simp, ?_, ?_, ?_⟩
    · rw [heq, List.append_assoc]
      rfl
    · intro p hp
      rcases List.mem_cons.mp hp with h | h
      · rw [h]
      · exact hval p h
    · rw [show comps ++ (node, comp_id) :: Δ = (comps ++ [(node, comp_id)]) ++ Δ by simp]
      exact hnd2
    · intro x hx
      simp only [List.map_cons, List.mem_cons] at hx
      rcases hx with h | h
      · subst h
        exact Relation.ReflTransGen.refl
      · obtain ⟨m, hm, hr⟩ := hreach x h
        exact Relation.ReflTransGen.head hm hr
    · intro x hx y hy
      rw [show comps ++ (node, comp_id) :: Δ = (comps ++ [(node, comp_id)]) ++ Δ by simp]
      simp only [List.map_cons, List.mem_cons] at hx
      rcases hx with h | h
      · subst h
        exact hcover y hy
      · exact hclosed x h y hy

theorem stepRel_symm_of_undirected (g : Graph) (hdir : g.directed = false) :
    ∀ x y, stepRel g x y → stepRel g y x := by
  intro x y hxy
  unfold stepRel Graph.get_neighbors at hxy ⊢
  obtain ⟨e, he, hey⟩ := List.mem_filterMap.mp hxy
  rw [List.mem_filterMap]
  refine ⟨e, he, ?_⟩
  by_cases hs : e.source = x
  · rw [if_pos hs] at hey
    simp only [Option.some_inj] at hey
    by_cases hsy : e.source = y
    · rw [if_pos hsy]
      rw [hey, ← hsy, hs]
    · rw [if_neg hsy, hdir]
      have ht : e.target = y := hey
      simp only [Bool.not_false, Bool.true_and, ht, if_pos (beq_self_eq_true y), hs]
  · rw [if_neg hs] at hey
    by_cases ht : (!g.directed && e.target == x) = true
    · rw [if_pos ht] at hey
      simp only [Option.some_inj] at hey
      have hsy : e.source = y := hey
      rw [if_pos hsy]
      have : e.target = x := by
        rw [hdir] at ht
        simpa using ht
      rw [this]
    · rw [if_neg ht] at hey
      exact absurd hey (by simp)

theorem lookup_isSome_of_mem_keys {β : Type} (m : List (Nat × β)) (k : Nat)
    (h : k ∈ m.map Prod.fst) : (dictLookup m k).isSome = true := by
  unfold dictLookup
  obtain ⟨p, hp, hpk⟩ := List.mem_map.mp h
  have hfs : (m.find? (fun p => p.1 == k)).isSome = true := by
    rw [List.find?_isSome]
    exact ⟨p, hp, by simpa using hpk⟩
  obtain ⟨r, hr⟩ := Option.isSome_iff_exists.mp hfs
  rw [hr]
  rfl

theorem mem_of_dictLookup_eq_some {β : Type} (m : List (Nat × β)) (k : Nat) (c : β)
    (h : dictLookup m k = some c) : (k, c) ∈ m := by
  unfold dictLookup at h
  obtain ⟨p, hp, hps⟩ := Option.map_eq_some'.mp h
  have hk : p.1 = k := by simpa using List.find?_some hp
  have := List.mem_of_find?_eq_some hp
  rw [show ((k : Nat), c) = p by
    cases p
    simp only at hps hk
    rw [hk, hps]]
  exact this

theorem ccOuter_spec (g : Graph) (hsym : ∀ x y, stepRel g x y → stepRel g y x) :
    ∀ (nids : List Nat) (comps : List (Nat × Nat)) (k : Nat),
      ((comps.map Prod.fst).Nodup) →
      (∀ n ∈ nids, n ∈ g.vertIds) →
      (∀ p ∈ comps, ∀ y ∈ g.get_neighbors p.1, (y, p.2) ∈ comps) →
      (∀ p ∈ comps, ∀ q ∈ comps, p.2 = q.2 →
        Relation.ReflTransGen (stepRel g) p.1 q.1) →
      (∀ p ∈ comps, p.2 < k) →
      ∃ comps' k', ccOuter g nids comps k = some (comps', k') ∧
        (∀ p ∈ comps, p ∈ comps') ∧
        ((comps'.map Prod.fst).Nodup) ∧
        (∀ p ∈ comps', ∀ y ∈ g.get_neighbors p.1, (y, p.2) ∈ comps') ∧
        (∀ p ∈ comps', ∀ q ∈ comps', p.2 = q.2 →
          Relation.ReflTransGen (stepRel g) p.1 q.1) ∧
        (∀ n ∈ nids, n ∈ comps'.map Prod.fst) := by
  intro nids
  induction nids with
  | nil =>
    intro comps k hnd _ hclosed hconn _
    exact ⟨comps, k, rfl, fun p hp => hp, hnd, hclosed, hconn, by simp⟩
  | cons nid rest ih =>
    intro comps k hnd hvert hclosed hconn hvals
    by_cases hc : dictContains comps nid = true
    · rw [ccOuter, if_pos hc]
      obtain ⟨comps', k', hrun, hmono, hnd', hclosed', hconn', hcover⟩ :=
        ih comps k hnd (fun m hm => hvert m (List.mem_cons_of_mem _ hm)) hclosed hconn hvals
      refine ⟨comps', k', hrun, hmono, hnd', hclosed', hconn', ?_⟩
      intro m hm
      rcases List.mem_cons.mp hm with h | h
      · subst h
        obtain ⟨p, hp, hpk⟩ := List.any_eq_true.mp hc
        have : p ∈ comps' := hmono p hp
        exact List.mem_map.mpr ⟨p, this, by simpa using hpk⟩
      · exact hcover m h
    · rw [ccOuter, if_neg hc]
      obtain ⟨Δ, heq, hval, hmemn, hnd₂, hreach, hclosedΔ⟩ :=
        ccDfs_spec g k (ccFuel g) comps nid hnd hc (hvert nid (List.mem_cons_self _ _))
          (by
            unfold ccFuel
            have := unvisCount_le_dedup g (comps.map Prod.fst)
            omega)
      rw [heq]
      have hkeysdisj : ∀ x ∈ Δ.map Prod.fst, x ∉ comps.map Prod.fst := by
        intro x hxΔ hxc
        rw [List.map_append, List.nodup_append] at hnd₂
        exact hnd₂.2.2 hxc hxΔ
      have hclosed₂ : ∀ p ∈ comps ++ Δ, ∀ y ∈ g.get_neighbors p.1, (y, p.2) ∈ comps ++ Δ := by
        intro p hp y hy
        rcases List.mem_append.mp hp with h | h
        · exact List.mem_append_left _ (hclosed p h y hy)
        · have hyk : y ∈ (comps ++ Δ).map Prod.fst :=
            hclosedΔ p.1 (List.mem_map.mpr ⟨p, h, rfl⟩) y hy
          rw [List.map_append, List.mem_append] at hyk
          rcases hyk with hyc | hyΔ
          · -- y was assigned in an earlier round; then by the old closure and
            -- symmetry p.1 would already be assigned, contradiction
            obtain ⟨q, hq, hqk⟩ := List.mem_map.mp hyc
            have hstep : stepRel g q.1 p.1 := by
              have : stepRel g p.1 y := hy
              rw [← hqk] at this
              exact hsym _ _ this
            have : (p.1, q.2) ∈ comps := hclosed q hq p.1 hstep
            have hpk : p.1 ∈ comps.map Prod.fst := List.mem_map.mpr ⟨_, this, rfl⟩
            have hpΔ : p.1 ∈ Δ.map Prod.fst := List.mem_map.mpr ⟨p, h, rfl⟩
            exact absurd hpk (hkeysdisj p.1 hpΔ)
          · obtain ⟨q, hq, hqk⟩ := List.mem_map.mp hyΔ
            have hq2 : q.2 = k := hval q hq
            have hp2 : p.2 = k := hval p h
            have : (y, p.2) = q := by
              cases q
              simp only at hqk hq2
              rw [hp2, ← hqk, hq2]
            rw [this]
            exact List.mem_append_right _ hq
      have hconn₂ : ∀ p ∈ comps ++ Δ, ∀ q ∈ comps ++ Δ, p.2 = q.2 →
          Relation.ReflTransGen (stepRel g) p.1 q.1 := by
        intro p hp q hq hpq
        rcases List.mem_append.mp hp with h | h <;> rcases List.mem_append.mp hq with h' | h'
        · exact hconn p h q h' hpq
        · exact absurd (hpq ▸ hval q h') (Nat.ne_of_lt (hvals p h))
        · exact absurd ((hval p h) ▸ hpq.symm) (Nat.ne_of_lt (hvals q h'))
        · have h1 : Relation.ReflTransGen (stepRel g) nid p.1 :=
            hreach p.1 (List.mem_map.mpr ⟨p, h, rfl⟩)
          have h2 : Relation.ReflTransGen (stepRel g) nid q.1 :=
            hreach q.1 (List.mem_map.mpr ⟨q, h', rfl⟩)
          exact Relation.ReflTransGen.trans
            ((Relation.ReflTransGen.symmetric hsym) h1) h2
      obtain ⟨comps', k', hrun, hmono, hnd', hclosed', hconn', hcover⟩ :=
        ih (comps ++ Δ) (k + 1) hnd₂ (fun m hm => hvert m (List.mem_cons_of_mem _ hm))
          hclosed₂ hconn₂
          (by
            intro p hp
            rcases List.mem_append.mp hp with h | h
            · exact Nat.lt_succ_of_lt (hvals p h)
            · rw [hval p h]
              exact Nat.lt_succ_self _)
      refine ⟨comps', k', hrun, ?_, hnd', hclosed', hconn', ?_⟩
      · intro p hp
        exact hmono p (List.mem_append_left _ hp)
      · intro m hm
        rcases List.mem_cons.mp hm with h | h
        · subst h
          obtain ⟨q, hq, hqk⟩ := List.mem_map.mp hmemn
          exact List.mem_map.mpr ⟨q, hmono q (List.mem_append_right _ hq), hqk⟩
        · exact hcover m h

/-- A directed graph with edges `1 → 0` and `1 → 2`: all three vertices are
weakly connected, yet the outer loop assigns vertex 0 its own component
before visiting vertex 1. -/
def gC3d : Graph :=
  (((((emptyGraph true).add_node 0 0 "").2.add_node 0 0 "").2.add_node 0 0 "").2.add_edge
    1 0 1).add_edge 1 2 1

/-- One step of weak adjacency: some edge joins the two vertices in either
orientation, ignoring the directed flag. -/
def weakStep (g : Graph) (x y : Nat) : Prop :=
  ∃ e ∈ g.edges, (e.source = x ∧ e.target = y) ∨ (e.source = y ∧ e.target = x)

/-- Path-connectedness ignoring edge direction (weak connectivity). -/
def WeakReach (g : Graph) (u v : Nat) : Prop :=
  Relation.ReflTransGen (weakStep g) u v

/-- C3 counterexample: on a directed graph the analysis does not implement
weak connectivity — vertices 0 and 1 are joined by an edge, yet they are
assigned different components. -/
theorem c3_directed_graph_splits_weak_component :
    gC3d.directed = true ∧ WeakReach gC3d 0 1 ∧
    ccComponents gC3d = some ([(0, 0), (1, 1), (2, 1)], 2) ∧
    dictLookup [((0 : Nat), (0 : Nat)), (1, 1), (2, 1)] 0 ≠
      dictLookup [((0 : Nat), (0 : Nat)), (1, 1), (2, 1)] 1 := by
  refine ⟨rfl, ?_, by decide, by decide⟩
  apply Relation.ReflTransGen.single
  exact ⟨mkEdge 1 0 1 true, by decide, Or.inr ⟨rfl, rfl⟩⟩

/-- C3 (amended): on every undirected graph the connected-components
analysis places two existing vertices in the same component exactly when a
path joins them (equivalently, a direction-ignoring path: the graph is
undirected). -/
theorem c3_undirected_same_component_iff_path (g : Graph)
    (hdir : g.directed = false) (u v : Nat)
    (hu : u ∈ nodeKeys g) (hv : v ∈ nodeKeys g) :
    ∃ comps k, ccComponents g = some (comps, k) ∧
      (dictLookup comps u).isSome = true ∧ (dictLookup comps v).isSome = true ∧
      (dictLookup comps u = dictLookup comps v ↔ Reach g u v) := by
  have hsym := stepRel_symm_of_undirected g hdir
  obtain ⟨comps', k', hrun, _, hnd', hclosed', hconn', hcover⟩ :=
    ccOuter_spec g hsym (g.nodes.map Prod.fst) [] 0 List.nodup_nil
      (fun n hn => by
        unfold Graph.vertIds
        exact List.mem_append_left _ hn)
      (by simp) (by simp) (by simp)
  have hucov := hcover u hu
  have hvcov := hcover v hv
  refine ⟨comps', k', hrun, lookup_isSome_of_mem_keys _ _ hucov,
    lookup_isSome_of_mem_keys _ _ hvcov, ?_⟩
  constructor
  · intro heq
    obtain ⟨cu, hcu⟩ := Option.isSome_iff_exists.mp (lookup_isSome_of_mem_keys _ _ hucov)
    have hcv : dictLookup comps' v = some cu := by rw [← heq, hcu]
    have hpu : (u, cu) ∈ comps' := mem_of_dictLookup_eq_some _ _ _ hcu
    have hpv : (v, cu) ∈ comps' := mem_of_dictLookup_eq_some _ _ _ hcv
    exact hconn' (u, cu) hpu (v, cu) hpv rfl
  · intro hreach
    have hgen : ∀ w, Reach g u w → dictLookup comps' u = dictLookup comps' w := by
      intro w hw
      induction hw with
      | refl => rfl
      | tail hab hbc ihx =>
        rename_i b c
        obtain ⟨cu, hcu⟩ :=
          Option.isSome_iff_exists.mp (lookup_isSome_of_mem_keys _ _ hucov)
        have hlb : dictLookup comps' b = some cu := by rw [← ihx, hcu]
        have hpb : (b, cu) ∈ comps' := mem_of_dictLookup_eq_some _ _ _ hlb
        have hpc : (c, cu) ∈ comps' := hclosed' (b, cu) hpb c hbc
        have hlc : dictLookup comps' c = some cu :=
          dictLookup_of_mem_nodup comps' (c, cu) hnd' hpc
        rw [hcu, hlc]
    exact hgen v hreach

/-- Witness for `c3_undirected_same_component_iff_path` at a concrete
input. -/
theorem c3_undirected_same_component_iff_path_witness :
    ∃ comps k, ccComponents gC6 = some (comps, k) ∧
      (dictLookup comps 0).isSome = true ∧ (dictLookup comps 2).isSome = true ∧
      (dictLookup comps 0 = dictLookup comps 2 ↔ Reach gC6 0 2) :=
  c3_undirected_same_component_iff_path gC6 rfl 0 2 (by decide) (by decide)

/-! ### Claim C4: cycle enumeration deduplication -/

/-- Stable insertion into a sorted list. -/
def insertSorted (x : Nat) : List Nat → List Nat
  | [] => [x]
  | y :: ys => if x ≤ y then x :: y :: ys else y :: insertSorted x ys

/-- Python `sorted` on a list of ints: the ascending stable sort (for
identical numeric keys any stable comparison sort yields this list). -/
def sortNat : List Nat → List Nat
  | [] => []
  | x :: xs => insertSorted x (sortNat xs)

/-- `min(cycle)` for a non-empty list. -/
def minNat : List Nat → Nat
  | [] => 0
  | x :: xs => xs.foldl min x

/-- `CycleDetectionModule._normalize_cycle`: rotate the cycle so that it
begins at the first occurrence of its minimum value. -/
def normalizeCycle (cycle : List Nat) : List Nat :=
  if cycle = [] then []
  else
    let i := cycle.indexOf (minNat cycle)
    cycle.drop i ++ cycle.take i

/-- The `for neighbor in sorted(...)` loop of the undirected cycle `dfs`:
skip the parent, record the path when the start closes a cycle of length at
least 3 and the orientation tie-break holds, and recurse into unvisited
neighbors greater than the start.  The recursive call is passed in so the
recursion stays structural in the fuel. -/
def cdNbrLoop (start current : Nat) (path : List Nat) (parent : Option Nat)
    (rec : Nat → List Nat → List (List Nat)) : List Nat → List (List Nat)
  | [] => []
  | neighbor :: ns =>
    if parent = some neighbor then cdNbrLoop start current path parent rec ns
    else if neighbor = start ∧ path.length ≥ 3 then
      (if path.getD 1 0 < current then [path] else []) ++
        cdNbrLoop start current path parent rec ns
    else if neighbor ∉ path ∧ neighbor > start then
      rec neighbor (path ++ [neighbor]) ++ cdNbrLoop start current path parent rec ns
    else cdNbrLoop start current path parent rec ns

/-- The recursive `dfs` of `_find_cycles_undirected_from_node`; `fuel`
bounds the recursion depth (each level extends the duplicate-free path). -/
def cdDfs (g : Graph) (start : Nat) : Nat → Nat → List Nat → Option Nat →
    List (List Nat)
  | 0, _, _, _ => []
  | fuel + 1, current, path, parent =>
    cdNbrLoop start current path parent
      (fun neighbor p => cdDfs g start fuel neighbor p (some current))
      (sortNat (g.get_neighbors current))

/-- Recursion-depth bound for the cycle search. -/
def cdFuel (g : Graph) : Nat := g.vertIds.dedup.length + 2

/-- `_find_cycles_undirected_from_node`. -/
def findCyclesUndirectedFrom (g : Graph) (start : Nat) : List (List Nat) :=
  cdDfs g start (cdFuel g) start [start] none

/-- `_detect_undirected`: collect cycles from every start vertex in
ascending order, append the closing vertex, and filter through the
(broken) rotation-normalization duplicate check. -/
def detectUndirectedCycles (g : Graph) : List (List Nat) :=
  (sortNat (g.nodes.map Prod.fst)).foldl (fun all_cycles start =>
    (findCyclesUndirectedFrom g start).foldl (fun acc cycle =>
      if acc.any (fun existing => normalizeCycle existing == normalizeCycle cycle) then acc
      else acc ++ [cycle ++ [cycle.headD 0]]) all_cycles) []

/-- An undirected triangle with a doubled edge between vertices 2 and 0. -/
def gC4 : Graph :=
  let g3 := ((((emptyGraph false).add_node 0 0 "").2.add_node 0 0 "").2.add_node 0 0 "").2
  (((g3.add_edge 0 1 1).add_edge 1 2 1).add_edge 2 0 1).add_edge 2 0 1

/-- C4: on the doubled-edge triangle the enumeration records the same cycle
once per parallel closing edge, and the duplicate check never fires (it
compares a stored cycle that carries the closing vertex against a candidate
that does not, so the normalized tuples differ in length) — the result list
contains the same rotated cycle twice. -/
theorem c4_duplicate_cycle_reported :
    detectUndirectedCycles gC4 = [[0, 1, 2, 0], [0, 1, 2, 0]] ∧
    ¬ List.Pairwise (fun a b => normalizeCycle a ≠ normalizeCycle b)
      (detectUndirectedCycles gC4) := by
  refine ⟨by decide, ?_⟩
  intro hpw
  rw [show detectUndirectedCycles gC4 = [[0, 1, 2, 0], [0, 1, 2, 0]] by decide] at hpw
  rw [List.pairwise_cons] at hpw
  exact hpw.1 [0, 1, 2, 0] (by simp) rfl

/-! ### Claims C1 and C10: Dijkstra -/

/-- `distance < distances[neighbor]`: `none` in the outer option means the
key is absent (Python would raise, which no reachable state does); `none`
in the inner option is `float('inf')`. -/
def distLt (d : Nat) (o : Option (Option Nat)) : Prop :=
  match o with
  | none => True
  | some none => True
  | some (some c) => d < c

instance (d : Nat) (o : Option (Option Nat)) : Decidable (distLt d o) := by
  unfold distLt
  split <;> infer_instance

/-- `curr_dist > distances[curr]` (`inf` compares greater than everything). -/
def distGt (c : Nat) (o : Option (Option Nat)) : Prop :=
  match o with
  | none => False
  | some none => False
  | some (some dc) => dc < c

instance (c : Nat) (o : Option (Option Nat)) : Decidable (distGt c o) := by
  unfold distGt
  split <;> infer_instance

/-- The inline weight lookup of `DijkstraModule.run`: weight of the first
edge matching `(curr, neighbor)` (either orientation when undirected),
defaulting to 1. -/
def effWeight (g : Graph) (curr neighbor : Nat) : Nat :=
  ((g.edges.find? (fun e =>
    (e.source == curr && e.target == neighbor) ||
    (!g.directed && e.target == curr && e.source == neighbor))).map Edge.weight).getD 1

/-- `heapq.heappop`: remove the lexicographically least `(distance, node)`
pair. -/
def popMin : List (Nat × Nat) → Option ((Nat × Nat) × List (Nat × Nat))
  | [] => none
  | p :: ps =>
    match popMin ps with
    | none => some (p, [])
    | some (q, rest) =>
      if p.1 < q.1 ∨ (p.1 = q.1 ∧ p.2 ≤ q.2) then some (p, ps) else some (q, p :: rest)

/-- The `for neighbor in self.graph.get_neighbors(curr)` relaxation loop:
on strict improvement update the distance and predecessor and push the new
pair. -/
def relaxList (g : Graph) (curr curr_dist : Nat) :
    List Nat → List (Nat × Option Nat) → List (Nat × Nat) → List (Nat × Nat) →
    List (Nat × Option Nat) × List (Nat × Nat) × List (Nat × Nat)
  | [], dist, prev, pq => (dist, prev, pq)
  | neighbor :: ns, dist, prev, pq =>
    let w := effWeight g curr neighbor
    let d := curr_dist + w
    if distLt d (dictLookup dist neighbor) then
      relaxList g curr curr_dist ns (dictAssign dist neighbor (some d))
        (dictAssign prev neighbor curr) (pq ++ [(d, neighbor)])
    else relaxList g curr curr_dist ns dist prev pq

/-- The `while pq` loop of `DijkstraModule.run`; `fuel` bounds iterations,
`none` reports exhaustion. -/
def dijkstraLoop (g : Graph) :
    Nat → List (Nat × Option Nat) → List (Nat × Nat) → List (Nat × Nat) →
    Option (List (Nat × Option Nat) × List (Nat × Nat))
  | 0, dist, prev, pq => if pq = [] then some (dist, prev) else none
  | fuel + 1, dist, prev, pq =>
    match popMin pq with
    | none => some (dist, prev)
    | some ((curr_dist, curr), rest) =>
      if distGt curr_dist (dictLookup dist curr) then dijkstraLoop g fuel dist prev rest
      else
        let r := relaxList g curr curr_dist (g.get_neighbors curr) dist prev rest
        dijkstraLoop g fuel r.1 r.2.1 r.2.2

/-- Total edge weight, used to bound the loop iteration count. -/
def weightSum (g : Graph) : Nat := (g.edges.map Edge.weight).sum

/-- Iteration budget for the Dijkstra loop. -/
def dijFuel (g : Graph) : Nat :=
  (weightSum g + 2) * (g.vertIds.dedup.length + 1) + 2

/-- `{node: float('inf') for node in self.graph.nodes}` followed by
`distances[start] = 0`. -/
def dijInitDist (g : Graph) (start : Nat) : List (Nat × Option Nat) :=
  dictAssign (g.nodes.map (fun p => (p.1, (none : Option Nat)))) start (some 0)

/-- The `while curr in previous or curr == start` reconstruction loop;
`fuel` bounds iterations (the predecessor chain of an actual run is
acyclic). -/
def reconPath (prev : List (Nat × Nat)) (start : Nat) :
    Nat → Nat → List Nat → List Nat
  | 0, _, acc => acc
  | fuel + 1, curr, acc =>
    if dictContains prev curr || curr == start then
      let acc' := acc ++ [curr]
      if curr = start then acc'
      else
        match dictLookup prev curr with
        | some nxt => reconPath prev start fuel nxt acc'
        | none => acc'
    else acc

/-- Outcome of `DijkstraModule.run` (the French report strings are
presentation; the data they render is kept). -/
inductive DijResult where
  | emptyG
  | badStart (s : Nat)
  | noPath (s e : Nat)
  | pathFound (s e : Nat) (path : List Nat) (total : Nat) (count : Nat)
  | allDist (s : Nat) (rows : List (Nat × Option Nat × List Nat))
deriving DecidableEq

/-- `sorted(distances.items(), key=lambda x: (x[1], x[0]))` comparison:
distances first (`inf` greatest), vertex ids break ties. -/
def rowLE (a b : Nat × Option Nat) : Bool :=
  match a.2, b.2 with
  | some da, some db => decide (da < db) || (da == db && decide (a.1 ≤ b.1))
  | some _, none => true
  | none, some _ => false
  | none, none => decide (a.1 ≤ b.1)

/-- Stable insertion for the row sort. -/
def insertRow (x : Nat × Option Nat) : List (Nat × Option Nat) → List (Nat × Option Nat)
  | [] => [x]
  | y :: ys => if rowLE x y then x :: y :: ys else y :: insertRow x ys

/-- Python `sorted` for the distance rows (insertion sort is stable, and
the `(distance, id)` keys are totally ordered with distinct ids, so this is
the list `sorted` returns). -/
def sortRows : List (Nat × Option Nat) → List (Nat × Option Nat)
  | [] => []
  | x :: xs => insertRow x (sortRows xs)

/-- The all-distances report rows: each vertex with its distance and, when
finite and not the start, its reconstructed path. -/
def dijRows (start : Nat) (dist : List (Nat × Option Nat)) (prev : List (Nat × Nat)) :
    List (Nat × Option Nat × List Nat) :=
  (sortRows dist).map (fun p =>
    if p.2.isSome ∧ p.1 ≠ start then
      (p.1, p.2, (reconPath prev start (prev.length + 1) p.1 []).reverse)
    else (p.1, p.2, []))

/-- `DijkstraModule.run`. -/
def dijkstraRun (g : Graph) (start? end? : Option Nat) : Option DijResult :=
  if g.nodes = [] then some .emptyG
  else
    let start := match start? with
      | none => (autoStart g).getD 0
      | some s => s
    if !(g.containsNode start) then some (.badStart start)
    else
      match dijkstraLoop g (dijFuel g) (dijInitDist g start) [] [(0, start)] with
      | none => none
      | some (dist, prev) =>
        match end? with
        | some e =>
          if g.containsNode e then
            match dictLookup dist e with
            | some (some d) =>
              let path := reconPath prev start (prev.length + 1) e []
              if path = [] ∨ path.getLast? ≠ some start then some (.noPath start e)
              else some (.pathFound start e path.reverse d path.length)
            | _ => some (.noPath start e)
          else some (.allDist start (dijRows start dist prev))
        | none => some (.allDist start (dijRows start dist prev))

/-- C10: a supplied end vertex that does not exist in the graph is silently
ignored — the run produces exactly the all-distances report it would
produce with no end vertex. -/
theorem c10_missing_end_vertex_ignored (g : Graph) (s e : Nat)
    (hn : g.nodes ≠ []) (hs : g.containsNode s = true)
    (he : g.containsNode e = false) :
    dijkstraRun g (some s) (some e) = dijkstraRun g (some s) none := by
  unfold dijkstraRun
  simp only [if_neg hn, hs, Bool.not_true, Bool.false_eq_true, if_false]
  cases hloop : dijkstraLoop g (dijFuel g) (dijInitDist g s) [] [(0, s)] with
  | none => rfl
  | some r =>
    cases r with
    | mk dist prev =>
      simp only [he, Bool.false_eq_true, if_false]

/-- Witness for `c10_missing_end_vertex_ignored` at a concrete input. -/
theorem c10_missing_end_vertex_ignored_witness :
    dijkstraRun gC6 (some 0) (some 99) = dijkstraRun gC6 (some 0) none :=
  c10_missing_end_vertex_ignored gC6 0 99 (by decide) rfl rfl

/-- One traversal of an actual stored edge, in the direction the graph
permits: forwards always, backwards when the graph is undirected. -/
def edgeStep (g : Graph) (e : Edge) (u v : Nat) : Prop :=
  e ∈ g.edges ∧
    ((e.source = u ∧ e.target = v) ∨ (g.directed = false ∧ e.target = u ∧ e.source = v))

/-- `RealWalkCost g u t c`: a walk from `u` to `t` along stored edges whose
weights sum to `c` — the true path length of the claim. -/
inductive RealWalkCost (g : Graph) : Nat → Nat → Nat → Prop where
  | nil : ∀ u, RealWalkCost g u u 0
  | cons : ∀ (u v t : Nat) (e : Edge) (c : Nat), edgeStep g e u v →
      RealWalkCost g v t c → RealWalkCost g u t (e.weight + c)

/-- An undirected two-vertex graph with parallel edges of weight 5 (stored
first) and weight 1 between 0 and 1. -/
def gC1 : Graph :=
  ((((emptyGraph false).add_node 0 0 "").2.add_node 0 0 "").2.add_edge 0 1 5).add_edge 0 1 1

/-- C1 counterexample: with parallel edges, the relaxation uses the weight
of the first stored matching edge, so Dijkstra reports distance 5 for
vertex 1 although a walk of weight 1 exists — the reported finite distance
is not the minimum total weight over all paths. -/
theorem c1_parallel_edges_report_first_weight :
    dijkstraRun gC1 (some 0) none =
      some (.allDist 0 [(0, some 0, []), (1, some 5, [0, 1])]) ∧
    RealWalkCost gC1 0 1 1 ∧ (1 : Nat) < 5 := by
  refine ⟨rfl, ?_, by decide⟩
  have hwalk := RealWalkCost.cons (g := gC1) 0 1 1 (mkEdge 0 1 1 false) 0
    ⟨by decide, Or.inl ⟨rfl, rfl⟩⟩ (RealWalkCost.nil 1)
  exact hwalk

theorem edgeStep_mem_neighbors (g : Graph) (e : Edge) (u v : Nat)
    (h : edgeStep g e u v) : v ∈ g.get_neighbors u := by
  obtain ⟨he, hdirs⟩ := h
  unfold Graph.get_neighbors
  rw [List.mem_filterMap]
  refine ⟨e, he, ?_⟩
  rcases hdirs with ⟨hsu, htv⟩ | ⟨hd, htu, hsv⟩
  · rw [if_pos hsu, htv]
  · by_cases hsu : e.source = u
    · rw [if_pos hsu]
      rw [htu, ← hsu, hsv]
    · rw [if_neg hsu, hd]
      simp only [Bool.not_false, Bool.true_and, htu, if_pos (beq_self_eq_true u), hsv]

theorem neighbors_first_edge (g : Graph) (u v : Nat) (h : v ∈ g.get_neighbors u) :
    ∃ e, edgeStep g e u v ∧ e.weight = effWeight g u v := by
  have hsome : ∃ e', g.edges.find? (fun e =>
      (e.source == u && e.target == v) ||
      (!g.directed && e.target == u && e.source == v)) = some e' := by
    rw [← Option.isSome_iff_exists, List.find?_isSome]
    unfold Graph.get_neighbors at h
    obtain ⟨e, he, hev⟩ := List.mem_filterMap.mp h
    refine ⟨e, he, ?_⟩
    by_cases hs : e.source = u
    · rw [if_pos hs] at hev
      simp only [Option.some_inj] at hev
      simp [hs, hev]
    · rw [if_neg hs] at hev
      by_cases ht : (!g.directed && e.target == u) = true
      · rw [if_pos ht] at hev
        simp only [Option.some_inj] at hev
        simp only [Bool.and_eq_true] at ht
        simp [ht.1, ht.2, hev]
      · rw [if_neg ht] at hev
        exact absurd hev (by simp)
  obtain ⟨e', he'⟩ := hsome
  have hmem := List.mem_of_find?_eq_some he'
  have hpred := List.find?_some he'
  simp only [Bool.or_eq_true, Bool.and_eq_true, beq_iff_eq, Bool.not_eq_true'] at hpred
  refine ⟨e', ⟨hmem, ?_⟩, ?_⟩
  · rcases hpred with ⟨hsu, htv⟩ | ⟨⟨hd, htu⟩, hsv⟩
    · exact Or.inl ⟨hsu, htv⟩
    · exact Or.inr ⟨hd, htu, hsv⟩
  · unfold effWeight
    rw [he']
    rfl

theorem RealWalkCost.append (g : Graph) (s u v : Nat) (c : Nat) (e : Edge)
    (hw : RealWalkCost g s u c) (hstep : edgeStep g e u v) :
    RealWalkCost g s v (c + e.weight) := by
  induction hw with
  | nil w =>
    have := RealWalkCost.cons w v v e 0 hstep (RealWalkCost.nil v)
    simpa [Nat.add_comm] using this
  | cons a b t e' c' hstep' hw' ih =>
    have := RealWalkCost.cons a b v e' (c' + e.weight) hstep' (ih hstep)
    rwa [← Nat.add_assoc] at this

/-- The witness paths maintained by the relaxation invariant: a
duplicate-free neighbor-walk from the start whose first-found step weights
sum to the cost, every vertex on it carrying a distance bounded by its
prefix cost. -/
inductive RelaxPath (g : Graph) (dist : List (Nat × Option Nat)) (start : Nat) :
    Nat → Nat → List Nat → Prop where
  | base : dictLookup dist start = some (some 0) → RelaxPath g dist start start 0 [start]
  | step : ∀ u v c p, RelaxPath g dist start u c p → v ∈ g.get_neighbors u → v ∉ p →
      (∃ dv, dictLookup dist v = some (some dv) ∧ dv ≤ c + effWeight g u v) →
      RelaxPath g dist start v (c + effWeight g u v) (p ++ [v])

theorem RelaxPath.mono (g : Graph) (start : Nat)
    (dist dist' : List (Nat × Option Nat))
    (hmon : ∀ x d, dictLookup dist x = some (some d) →
      ∃ d', dictLookup dist' x = some (some d') ∧ d' ≤ d) :
    ∀ v c p, RelaxPath g dist start v c p → RelaxPath g dist' start v c p := by
  intro v c p h
  induction h with
  | base h0 =>
    obtain ⟨d', hd', hle⟩ := hmon start 0 h0
    rw [Nat.le_zero.mp hle] at hd'
    exact RelaxPath.base hd'
  | step u v c p _ hnbr hnp hdv ih =>
    obtain ⟨dv, hdv', hle⟩ := hdv
    obtain ⟨d', hd', hle'⟩ := hmon v dv hdv'
    exact RelaxPath.step u v c p ih hnbr hnp ⟨d', hd', le_trans hle' hle⟩

theorem RelaxPath.mem_bound (g : Graph) (dist : List (Nat × Option Nat)) (start : Nat) :
    ∀ v c p, RelaxPath g dist start v c p →
      ∀ x ∈ p, ∃ dx, dictLookup dist x = some (some dx) ∧ dx ≤ c := by
  intro v c p h
  induction h with
  | base h0 =>
    intro x hx
    simp only [List.mem_singleton] at hx
    subst hx
    exact ⟨0, h0, Nat.le_refl 0⟩
  | step u v c p _ hnbr hnp hdv ih =>
    intro x hx
    rcases List.mem_append.mp hx with h | h
    · obtain ⟨dx, hdx, hle⟩ := ih x h
      exact ⟨dx, hdx, le_trans hle (Nat.le_add_right _ _)⟩
    · simp only [List.mem_singleton] at h
      subst h
      exact hdv

theorem RelaxPath.realizable (g : Graph) (dist : List (Nat × Option Nat)) (start : Nat) :
    ∀ v c p, RelaxPath g dist start v c p → RealWalkCost g start v c := by
  intro v c p h
  induction h with
  | base _ => exact RealWalkCost.nil start
  | step u v c p _ hnbr _ _ ih =>
    obtain ⟨e, hstep, hw⟩ := neighbors_first_edge g u v hnbr
    have := RealWalkCost.append g start u v c e ih hstep
    rwa [hw] at this

theorem relaxList_nil (g : Graph) (curr curr_dist : Nat)
    (dist : List (Nat × Option Nat)) (prev pq : List (Nat × Nat)) :
    relaxList g curr curr_dist [] dist prev pq = (dist, prev, pq) := by
  rw [relaxList]

theorem relaxList_cons (g : Graph) (curr curr_dist neighbor : Nat) (ns : List Nat)
    (dist : List (Nat × Option Nat)) (prev pq : List (Nat × Nat)) :
    relaxList g curr curr_dist (neighbor :: ns) dist prev pq =
      if distLt (curr_dist + effWeight g curr neighbor) (dictLookup dist neighbor) then
        relaxList g curr curr_dist ns
          (dictAssign dist neighbor (some (curr_dist + effWeight g curr neighbor)))
          (dictAssign prev neighbor curr)
          (pq ++ [(curr_dist + effWeight g curr neighbor, neighbor)])
      else relaxList g curr curr_dist ns dist prev pq := by
  rw [relaxList]

theorem distLt_of_lt_of_distLt (a b : Nat) (o : Option (Option Nat))
    (hab : a ≤ b) (h : distLt b o) : distLt a o := by
  unfold distLt at h ⊢
  match o with
  | none => trivial
  | some none => trivial
  | some (some c) => exact lt_of_le_of_lt hab h

theorem relaxList_spec (g : Graph) (curr curr_dist : Nat) :
    ∀ (ns : List Nat) (dist : List (Nat × Option Nat)) (prev pq : List (Nat × Nat)),
      ((dist.map Prod.fst).Nodup) →
      dictLookup dist curr = some (some curr_dist) →
      (((relaxList g curr curr_dist ns dist prev pq).1.map Prod.fst).Nodup) ∧
      dictLookup (relaxList g curr curr_dist ns dist prev pq).1 curr =
        some (some curr_dist) ∧
      (∀ x d, dictLookup dist x = some (some d) →
        ∃ d', dictLookup (relaxList g curr curr_dist ns dist prev pq).1 x =
          some (some d') ∧ d' ≤ d) ∧
      (∀ x d', dictLookup (relaxList g curr curr_dist ns dist prev pq).1 x =
          some (some d') →
        dictLookup dist x = some (some d') ∨
          (x ∈ ns ∧ d' = curr_dist + effWeight g curr x ∧
            distLt d' (dictLookup dist x) ∧
            (d', x) ∈ (relaxList g curr curr_dist ns dist prev pq).2.2)) ∧
      (∀ q ∈ pq, q ∈ (relaxList g curr curr_dist ns dist prev pq).2.2) ∧
      (∀ q ∈ (relaxList g curr curr_dist ns dist prev pq).2.2, q ∈ pq ∨
        ∃ dv, dictLookup (relaxList g curr curr_dist ns dist prev pq).1 q.2 =
          some (some dv) ∧ dv ≤ q.1) ∧
      (∀ y ∈ ns, ∃ dy, dictLookup (relaxList g curr curr_dist ns dist prev pq).1 y =
        some (some dy) ∧ dy ≤ curr_dist + effWeight g curr y) := by
  intro ns
  induction ns with
  | nil =>
    intro dist prev pq hnd hcurr
    rw [relaxList_nil]
    exact ⟨hnd, hcurr, fun x d h => ⟨d, h, Nat.le_refl d⟩, fun x d' h => Or.inl h,
      fun q hq => hq, fun q hq => Or.inl hq, by simp⟩
  | cons neighbor ns ih =>
    intro dist prev pq hnd hcurr
    rw [relaxList_cons]
    by_cases hlt : distLt (curr_dist + effWeight g curr neighbor) (dictLookup dist neighbor)
    · rw [if_pos hlt]
      set nd := curr_dist + effWeight g curr neighbor with hnddef
      have hnecurr : neighbor ≠ curr := by
        intro hc
        subst hc
        rw [hcurr] at hlt
        unfold distLt at hlt
        omega
      set dist₁ := dictAssign dist neighbor (some nd) with hdist₁
      have hnd₁ : ((dist₁.map Prod.fst).Nodup) := dictAssign_keys_nodup _ _ _ hnd
      have hlk_n : dictLookup dist₁ neighbor = some (some nd) := dictLookup_assign_self _ _ _
      have hlk_o : ∀ x, x ≠ neighbor → dictLookup dist₁ x = dictLookup dist x := by
        intro x hx
        exact dictLookup_assign_ne _ _ _ _ hx
      have hcurr₁ : dictLookup dist₁ curr = some (some curr_dist) := by
        rw [hlk_o curr (Ne.symm hnecurr)]
        exact hcurr
      obtain ⟨ih1, ih2, ih3, ih4, ih5, ih6, ih7⟩ :=
        ih dist₁ (dictAssign prev neighbor curr) (pq ++ [(nd, neighbor)]) hnd₁ hcurr₁
      refine ⟨ih1, ih2, ?_, ?_, ?_, ?_, ?_⟩
      · -- monotonicity
        intro x d hx
        by_cases hxe : x = neighbor
        · subst hxe
          have hdlt : nd ≤ d := by
            rw [hx] at hlt
            unfold distLt at hlt
            omega
          obtain ⟨d', hd', hle⟩ := ih3 x nd hlk_n
          exact ⟨d', hd', le_trans hle hdlt⟩
        · obtain ⟨d', hd', hle⟩ := ih3 x d (by rw [hlk_o x hxe]; exact hx)
          exact ⟨d', hd', hle⟩
      · -- new-entry characterization
        intro x d' hx
        rcases ih4 x d' hx with h | ⟨hxn, hd', hdl, hpq⟩
        · by_cases hxe : x = neighbor
          · subst hxe
            rw [hlk_n] at h
            simp only [Option.some_inj] at h
            refine Or.inr ⟨List.mem_cons_self _ _, by rw [← h], by rw [← h]; exact hlt, ?_⟩
            rw [← h]
            exact ih5 (nd, x) (List.mem_append_right _ (by simp))
          · rw [hlk_o x hxe] at h
            exact Or.inl h
        · refine Or.inr ⟨List.mem_cons_of_mem _ hxn, hd', ?_, hpq⟩
          by_cases hxe : x = neighbor
          · subst hxe
            rw [hlk_n] at hdl
            unfold distLt at hdl
            exact distLt_of_lt_of_distLt d' nd (dictLookup dist x) (Nat.le_of_lt hdl) hlt
          · rwa [hlk_o x hxe] at hdl
      · -- old queue entries survive
        intro q hq
        exact ih5 q (List.mem_append_left _ hq)
      · -- queue characterization
        intro q hq
        rcases ih6 q hq with h | h
        · rcases List.mem_append.mp h with h' | h'
          · exact Or.inl h'
          · simp only [List.mem_singleton] at h'
            subst h'
            obtain ⟨d', hd', hle⟩ := ih3 neighbor nd hlk_n
            exact Or.inr ⟨d', hd', hle⟩
        · exact Or.inr h
      · -- every listed neighbor ends up bounded
        intro y hy
        rcases List.mem_cons.mp hy with h | h
        · subst h
          obtain ⟨d', hd', hle⟩ := ih3 y nd hlk_n
          exact ⟨d', hd', hle⟩
        · exact ih7 y h
    · rw [if_neg hlt]
      obtain ⟨ih1, ih2, ih3, ih4, ih5, ih6, ih7⟩ := ih dist prev pq hnd hcurr
      refine ⟨ih1, ih2, ih3, ?_, ih5, ih6, ?_⟩
      · intro x d' hx
        rcases ih4 x d' hx with h | ⟨hxn, hd', hdl, hpq⟩
        · exact Or.inl h
        · exact Or.inr ⟨List.mem_cons_of_mem _ hxn, hd', hdl, hpq⟩
      · intro y hy
        rcases List.mem_cons.mp hy with h | h
        · subst h
          have hdn : ∃ dn, dictLookup dist y = some (some dn) ∧
              dn ≤ curr_dist + effWeight g curr y := by
            unfold distLt at hlt
            match hdl : dictLookup dist y with
            | none => rw [hdl] at hlt; exact absurd trivial hlt
            | some none => rw [hdl] at hlt; exact absurd trivial hlt
            | some (some dn) =>
              rw [hdl] at hlt
              exact ⟨dn, rfl, by omega⟩
          obtain ⟨dn, hdn', hle⟩ := hdn
          obtain ⟨d', hd', hle'⟩ := ih3 y dn hdn'
          exact ⟨d', hd', le_trans hle' hle⟩
        · exact ih7 y h

theorem popMin_cons_none (p : Nat × Nat) (ps : List (Nat × Nat))
    (hps : popMin ps = none) : popMin (p :: ps) = some (p, []) := by
  rw [popMin, hps]

theorem popMin_cons_some_le (p : Nat × Nat) (ps : List (Nat × Nat)) (q : Nat × Nat)
    (rest : List (Nat × Nat)) (hps : popMin ps = some (q, rest))
    (hle : p.1 < q.1 ∨ (p.1 = q.1 ∧ p.2 ≤ q.2)) : popMin (p :: ps) = some (p, ps) := by
  rw [popMin, hps]
  simp only [if_pos hle]

theorem popMin_cons_some_gt (p : Nat × Nat) (ps : List (Nat × Nat)) (q : Nat × Nat)
    (rest : List (Nat × Nat)) (hps : popMin ps = some (q, rest))
    (hgt : ¬(p.1 < q.1 ∨ (p.1 = q.1 ∧ p.2 ≤ q.2))) :
    popMin (p :: ps) = some (q, p :: rest) := by
  rw [popMin, hps]
  simp only [if_neg hgt]

theorem popMin_eq_none (pq : List (Nat × Nat)) : popMin pq = none ↔ pq = [] := by
  match pq with
  | [] => exact ⟨fun _ => rfl, fun _ => rfl⟩
  | p :: ps =>
    constructor
    · intro h
      cases hps : popMin ps with
      | none =>
        rw [popMin_cons_none p ps hps] at h
        exact absurd h (by simp)
      | some qr =>
        by_cases hle : p.1 < qr.1.1 ∨ (p.1 = qr.1.1 ∧ p.2 ≤ qr.1.2)
        · rw [popMin_cons_some_le p ps qr.1 qr.2 (by rw [hps]) hle] at h
          exact absurd h (by simp)
        · rw [popMin_cons_some_gt p ps qr.1 qr.2 (by rw [hps]) hle] at h
          exact absurd h (by simp)
    · intro h
      exact absurd h (by simp)

theorem popMin_perm (pq : List (Nat × Nat)) (q : Nat × Nat) (rest : List (Nat × Nat))
    (h : popMin pq = some (q, rest)) : pq.Perm (q :: rest) := by
  induction pq generalizing q rest with
  | nil =>
    rw [show popMin ([] : List (Nat × Nat)) = none from rfl] at h
    exact absurd h (by simp)
  | cons p ps ih =>
    cases hps : popMin ps with
    | none =>
      rw [popMin_cons_none p ps hps] at h
      simp only [Option.some_inj, Prod.mk.injEq] at h
      obtain ⟨h1, h2⟩ := h
      subst h1
      rw [← h2, (popMin_eq_none ps).mp hps]
    | some qr =>
      by_cases hle : p.1 < qr.1.1 ∨ (p.1 = qr.1.1 ∧ p.2 ≤ qr.1.2)
      · rw [popMin_cons_some_le p ps qr.1 qr.2 (by rw [hps]) hle] at h
        simp only [Option.some_inj, Prod.mk.injEq] at h
        obtain ⟨h1, h2⟩ := h
        subst h1
        rw [← h2]
      · rw [popMin_cons_some_gt p ps qr.1 qr.2 (by rw [hps]) hle] at h
        simp only [Option.some_inj, Prod.mk.injEq] at h
        obtain ⟨h1, h2⟩ := h
        have hperm := ih qr.1 qr.2 (by rw [hps])
        rw [← h2, ← h1]
        exact (List.Perm.cons p hperm).trans (List.Perm.swap qr.1 p qr.2)

theorem dijkstraLoop_succ_pop (g : Graph) (fuel : Nat) (dist : List (Nat × Option Nat))
    (prev pq : List (Nat × Nat)) (c u : Nat) (rest : List (Nat × Nat))
    (hpop : popMin pq = some ((c, u), rest)) :
    dijkstraLoop g (fuel + 1) dist prev pq =
      if distGt c (dictLookup dist u) then dijkstraLoop g fuel dist prev rest
      else
        dijkstraLoop g fuel (relaxList g u c (g.get_neighbors u) dist prev rest).1
          (relaxList g u c (g.get_neighbors u) dist prev rest).2.1
          (relaxList g u c (g.get_neighbors u) dist prev rest).2.2 := by
  rw [dijkstraLoop, hpop]

/-- The loop invariant of the embedded Dijkstra: distances are exact
first-found-weight walk costs witnessed by relax paths, pending queue
entries dominate the current distances, and every vertex is either still
queued at its current distance or fully relaxed. -/
structure DijInv (g : Graph) (start : Nat) (dist : List (Nat × Option Nat))
    (pq : List (Nat × Nat)) : Prop where
  keys_nodup : (dist.map Prod.fst).Nodup
  start_zero : dictLookup dist start = some (some 0)
  realizable : ∀ v d, dictLookup dist v = some (some d) →
    ∃ p, RelaxPath g dist start v d p
  pq_dom : ∀ q ∈ pq, ∃ dv, dictLookup dist q.2 = some (some dv) ∧ dv ≤ q.1
  relaxed : ∀ v dv, dictLookup dist v = some (some dv) →
    ((dv, v) ∈ pq ∨ ∀ y ∈ g.get_neighbors v, ∃ dy,
      dictLookup dist y = some (some dy) ∧ dy ≤ dv + effWeight g v y)

theorem dijkstraLoop_partial (g : Graph) (start : Nat) :
    ∀ (fuel : Nat) (dist : List (Nat × Option Nat)) (prev pq : List (Nat × Nat))
      (dist' : List (Nat × Option Nat)) (prev' : List (Nat × Nat)),
      DijInv g start dist pq →
      dijkstraLoop g fuel dist prev pq = some (dist', prev') →
      ((dist'.map Prod.fst).Nodup) ∧
      dictLookup dist' start = some (some 0) ∧
      (∀ v d, dictLookup dist' v = some (some d) → ∃ p, RelaxPath g dist' start v d p) ∧
      (∀ v dv, dictLookup dist' v = some (some dv) → ∀ y ∈ g.get_neighbors v,
        ∃ dy, dictLookup dist' y = some (some dy) ∧ dy ≤ dv + effWeight g v y) := by
  intro fuel
  induction fuel with
  | zero =>
    intro dist prev pq dist' prev' hinv hrun
    rw [dijkstraLoop] at hrun
    split at hrun
    · rename_i hpq
      simp only [Option.some_inj, Prod.mk.injEq] at hrun
      obtain ⟨h1, h2⟩ := hrun
      subst h1
      refine ⟨hinv.keys_nodup, hinv.start_zero, hinv.realizable, ?_⟩
      intro v dv hv y hy
      rcases hinv.relaxed v dv hv with h | h
      · rw [hpq] at h
        exact absurd h (by simp)
      · exact h y hy
    · exact absurd hrun (by simp)
  | succ fuel ih =>
    intro dist prev pq dist' prev' hinv hrun
    rw [dijkstraLoop] at hrun
    match hpop : popMin pq with
    | none =>
      rw [hpop] at hrun
      simp only [Option.some_inj, Prod.mk.injEq] at hrun
      obtain ⟨h1, h2⟩ := hrun
      subst h1
      have hpqnil : pq = [] := (popMin_eq_none pq).mp hpop
      refine ⟨hinv.keys_nodup, hinv.start_zero, hinv.realizable, ?_⟩
      intro v dv hv y hy
      rcases hinv.relaxed v dv hv with h | h
      · rw [hpqnil] at h
        exact absurd h (by simp)
      · exact h y hy
    | some ((c, u), rest) =>
      rw [← dijkstraLoop] at hrun
      rw [dijkstraLoop_succ_pop g fuel dist prev pq c u rest hpop] at hrun
      have hperm := popMin_perm pq (c, u) rest hpop
      obtain ⟨du, hdu, hdule⟩ := hinv.pq_dom (c, u) (hperm.symm.subset (by simp))
      by_cases hskip : distGt c (dictLookup dist u)
      · rw [if_pos hskip] at hrun
        have hdult : du < c := by
          unfold distGt at hskip
          rw [hdu] at hskip
          exact hskip
        refine ih dist prev rest dist' prev' ⟨hinv.keys_nodup, hinv.start_zero,
          hinv.realizable, ?_, ?_⟩ hrun
        · intro q hq
          exact hinv.pq_dom q (hperm.symm.subset (List.mem_cons_of_mem _ hq))
        · intro v dv hv
          rcases hinv.relaxed v dv hv with h | h
          · have := hperm.subset h
            rcases List.mem_cons.mp this with h' | h'
            · exfalso
              have hvu : v = u := congrArg Prod.snd h'
              have hdvc : dv = c := congrArg Prod.fst h'
              rw [hvu] at hv
              rw [hv] at hdu
              simp only [Option.some_inj] at hdu
              omega
            · exact Or.inl h'
          · exact Or.inr h
      · rw [if_neg hskip] at hrun
        have hduc : du = c := by
          unfold distGt at hskip
          rw [hdu] at hskip
          omega
        rw [hduc] at hdu
        obtain ⟨r1, r2, r3, r4, r5, r6, r7⟩ :=
          relaxList_spec g u c (g.get_neighbors u) dist prev rest hinv.keys_nodup hdu
        refine ih _ _ _ dist' prev' ⟨r1, ?_, ?_, ?_, ?_⟩ hrun
        · obtain ⟨d0, hd0, hd0le⟩ := r3 start 0 hinv.start_zero
          rw [Nat.le_zero.mp hd0le] at hd0
          exact hd0
        · -- realizability transfers and extends to the relaxed vertices
          intro v d hv
          have hmono := r3
          rcases r4 v d hv with h | ⟨hvn, hd, hdl, hpq'⟩
          · obtain ⟨p, hp⟩ := hinv.realizable v d h
            exact ⟨p, RelaxPath.mono g start dist _ hmono v d p hp⟩
          · obtain ⟨pu, hpu⟩ := hinv.realizable u c hdu
            have hpu' := RelaxPath.mono g start dist _ hmono u c pu hpu
            have hvnotp : v ∉ pu := by
              intro hvp
              obtain ⟨dx, hdx, hdxle⟩ :=
                RelaxPath.mem_bound g dist start u c pu hpu v hvp
              rw [hdx] at hdl
              unfold distLt at hdl
              omega
            refine ⟨pu ++ [v], ?_⟩
            rw [hd]
            exact RelaxPath.step u v c pu hpu' hvn hvnotp ⟨d, hv, by rw [hd]⟩
        · intro q hq
          rcases r6 q hq with h | h
          · obtain ⟨dv, hdv, hle⟩ :=
              hinv.pq_dom q (hperm.symm.subset (List.mem_cons_of_mem _ h))
            obtain ⟨dv', hdv', hle'⟩ := r3 q.2 dv hdv
            exact ⟨dv', hdv', le_trans hle' hle⟩
          · exact h
        · intro v dv hv
          rcases r4 v dv hv with h | ⟨hvn, hd, hdl, hpq'⟩
          · rcases hinv.relaxed v dv h with h' | h'
            · have := hperm.subset h'
              rcases List.mem_cons.mp this with h'' | h''
              · -- the popped vertex itself: all its neighbors are now relaxed
                have hvu : v = u := congrArg Prod.snd h''
                have hdvc : dv = c := congrArg Prod.fst h''
                subst hvu
                refine Or.inr ?_
                intro y hy
                rw [hdvc]
                exact r7 y hy
              · exact Or.inl (r5 _ h'')
            · refine Or.inr ?_
              intro y hy
              obtain ⟨dy, hdy, hle⟩ := h' y hy
              obtain ⟨dy', hdy', hle'⟩ := r3 y dy hdy
              exact ⟨dy', hdy', le_trans hle' hle⟩
          · exact Or.inl hpq'

theorem dist_le_walk (g : Graph) (dist : List (Nat × Option Nat))
    (hmin : ∀ u v e, edgeStep g e u v → effWeight g u v ≤ e.weight)
    (hrelaxed : ∀ v dv, dictLookup dist v = some (some dv) →
      ∀ y ∈ g.get_neighbors v, ∃ dy, dictLookup dist y = some (some dy) ∧
        dy ≤ dv + effWeight g v y) :
    ∀ u t c, RealWalkCost g u t c → ∀ du, dictLookup dist u = some (some du) →
      ∃ dt, dictLookup dist t = some (some dt) ∧ dt ≤ du + c := by
  intro u t c hw
  induction hw with
  | nil w =>
    intro du hdu
    exact ⟨du, hdu, by omega⟩
  | cons a b t e c hstep hw ih =>
    intro du hdu
    have hb : b ∈ g.get_neighbors a := edgeStep_mem_neighbors g e a b hstep
    obtain ⟨db, hdb, hdble⟩ := hrelaxed a du hdu b hb
    obtain ⟨dt, hdt, hdtle⟩ := ih db hdb
    have heff := hmin a b e hstep
    exact ⟨dt, hdt, by omega⟩

theorem insertRow_perm (x : Nat × Option Nat) (l : List (Nat × Option Nat)) :
    (insertRow x l).Perm (x :: l) := by
  induction l with
  | nil => exact List.Perm.refl _
  | cons y ys ih =>
    rw [insertRow]
    split
    · exact List.Perm.refl _
    · exact (List.Perm.cons y ih).trans (List.Perm.swap x y ys)

theorem sortRows_perm (l : List (Nat × Option Nat)) : (sortRows l).Perm l := by
  induction l with
  | nil => exact List.Perm.refl _
  | cons x xs ih =>
    rw [sortRows]
    exact (insertRow_perm x (sortRows xs)).trans (List.Perm.cons x ih)

theorem initDist_lookup_other (g : Graph) (start v : Nat) (o : Option Nat)
    (hv : v ≠ start) (h : dictLookup (dijInitDist g start) v = some o) : o = none := by
  unfold dijInitDist at h
  rw [dictLookup_assign_ne _ _ _ _ hv] at h
  unfold dictLookup at h
  obtain ⟨p, hp, hps⟩ := Option.map_eq_some'.mp h
  have := List.mem_of_find?_eq_some hp
  obtain ⟨q, _, hq⟩ := List.mem_map.mp this
  rw [← hq] at hps
  rw [← hps]

/-- C1 (amended): whenever the first stored edge matching an ordered pair
carries the minimum weight among the parallel edges matching it (in
particular whenever no parallel edges exist), every vertex the
all-distances report shows with a finite distance has that distance equal
to the true shortest-path length from the start: some walk realizes it and
no walk is cheaper.  With parallel edges of decreasing weight the
relaxation uses the first stored weight and the reported distance can
exceed the true minimum. -/
theorem c1_reported_finite_distances_are_shortest (g : Graph) (start : Nat)
    (hmin : ∀ u v e, edgeStep g e u v → effWeight g u v ≤ e.weight)
    (hnodesnd : (nodeKeys g).Nodup)
    (hs : g.containsNode start = true)
    (rows : List (Nat × Option Nat × List Nat))
    (hrun : dijkstraRun g (some start) none = some (.allDist start rows)) :
    ∀ v d path, (v, some d, path) ∈ rows →
      RealWalkCost g start v d ∧ ∀ c, RealWalkCost g start v c → d ≤ c := by
  have hne : g.nodes ≠ [] := by
    intro hnil
    rw [Graph.containsNode, dictContains, hnil] at hs
    simp at hs
  unfold dijkstraRun at hrun
  simp only [if_neg hne, hs, Bool.not_true, Bool.false_eq_true, if_false] at hrun
  have hkeys0 : (dijInitDist g start).map Prod.fst = nodeKeys g := by
    unfold dijInitDist
    rw [dictAssign_keys]
    have hbase : (g.nodes.map (fun p => (p.1, (none : Option Nat)))).map Prod.fst =
        nodeKeys g := by
      rw [List.map_map]
      rfl
    rw [hbase]
    rw [if_pos ?_]
    rw [show dictContains (g.nodes.map (fun p => (p.1, (none : Option Nat)))) start =
        true ↔ start ∈ nodeKeys g from by
      rw [dictContains_iff_mem_keys, hbase]]
    rw [Graph.containsNode, dictContains_iff_mem_keys] at hs
    exact hs
  have hinv : DijInv g start (dijInitDist g start) [(0, start)] := by
    have hz : dictLookup (dijInitDist g start) start = some (some 0) :=
      dictLookup_assign_self _ _ _
    refine ⟨?_, hz, ?_, ?_, ?_⟩
    · rw [hkeys0]
      exact hnodesnd
    · intro v d hv
      by_cases hvs : v = start
      · subst hvs
        rw [hz] at hv
        simp only [Option.some_inj] at hv
        rw [← hv]
        exact ⟨[v], RelaxPath.base hz⟩
      · have := initDist_lookup_other g start v (some d) hvs hv
        exact absurd this (by simp)
    · intro q hq
      simp only [List.mem_singleton] at hq
      subst hq
      exact ⟨0, hz, Nat.le_refl 0⟩
    · intro v dv hv
      by_cases hvs : v = start
      · subst hvs
        rw [hz] at hv
        simp only [Option.some_inj] at hv
        rw [← hv]
        exact Or.inl (by simp)
      · have := initDist_lookup_other g start v (some dv) hvs hv
        exact absurd this (by simp)
  cases hloop : dijkstraLoop g (dijFuel g) (dijInitDist g start) [] [(0, start)] with
  | none =>
    rw [hloop] at hrun
    exact absurd hrun (by simp)
  | some dp =>
    obtain ⟨dist, prev⟩ := dp
    rw [hloop] at hrun
    simp only [Option.some_inj, DijResult.allDist.injEq] at hrun
    obtain ⟨nd, hz, hreal, hrelaxed⟩ :=
      dijkstraLoop_partial g start (dijFuel g) (dijInitDist g start) [] [(0, start)]
        dist prev hinv hloop
    intro v d path hmem
    have hrow : ((v : Nat), (some d : Option Nat)) ∈ dist := by
      rw [← hrun.2] at hmem
      unfold dijRows at hmem
      obtain ⟨q, hq, hqe⟩ := List.mem_map.mp hmem
      have hq' : q = (v, some d) := by
        split at hqe
        all_goals
          have h1 : q.1 = v := congrArg (fun t => t.1) hqe
          have h2 : q.2 = some d := congrArg (fun t => t.2.1) hqe
          exact Prod.ext h1 h2
      rw [← hq']
      exact (sortRows_perm dist).subset hq
    have hlk : dictLookup dist v = some (some d) :=
      dictLookup_of_mem_nodup dist (v, some d) nd hrow
    constructor
    · obtain ⟨p, hp⟩ := hreal v d hlk
      exact RelaxPath.realizable g dist start v d p hp
    · intro c hc
      obtain ⟨dt, hdt, hle⟩ := dist_le_walk g dist hmin hrelaxed start v c hc 0 hz
      rw [hlk] at hdt
      simp only [Option.some_inj] at hdt
      omega

/-- Witness for `c1_reported_finite_distances_are_shortest` at a concrete
input (the unit-weight triangle, which has no parallel edges). -/
theorem c1_reported_finite_distances_are_shortest_witness :
    RealWalkCost gC6 0 1 1 ∧ ∀ c, RealWalkCost gC6 0 1 c → 1 ≤ c := by
  have hmin : ∀ u v e, edgeStep gC6 e u v → effWeight gC6 u v ≤ e.weight := by
    intro u v e hstep
    have hes : gC6.edges = [mkEdge 0 1 1 false, mkEdge 1 2 1 false, mkEdge 2 0 1 false] :=
      rfl
    have he := hstep.1
    have hw1 : e.weight = 1 := by
      rw [hes] at he
      simp only [List.mem_cons, List.mem_singleton, List.not_mem_nil, or_false] at he
      rcases he with h | h | h <;> rw [h] <;> rfl
    obtain ⟨e', hstep', hw'⟩ :=
      neighbors_first_edge gC6 u v (edgeStep_mem_neighbors gC6 e u v hstep)
    have he' := hstep'.1
    have hw2 : e'.weight = 1 := by
      rw [hes] at he'
      simp only [List.mem_cons, List.mem_singleton, List.not_mem_nil, or_false] at he'
      rcases he' with h | h | h <;> rw [h] <;> rfl
    rw [← hw', hw2, hw1]
  exact c1_reported_finite_distances_are_shortest gC6 0 hmin (by decide) rfl
    [(0, some 0, []), (1, some 1, [0, 1]), (2, some 1, [0, 2])] rfl 1 1 [0, 1]
    (by simp)

/-! ### Frame effects of the analysis runs (C2)

`BFSModule.run`, `DFSModule.run`, `DijkstraModule.run`,
`CycleDetectionModule.run` and `EulerianModule.run` contain no assignment
to any field of `self.graph`, its nodes or its edges; their net effect on
the graph, paired with the result they compute, is the identity.
`ConnectedComponentsModule.run` is the exception: its coloring loop
assigns `self.graph.nodes[node_id].color` in place (`ccRun` above). -/

/-- Net effect of `BFSModule.run` on the graph, with its result. -/
def bfsRunG (g : Graph) (start? : Option Nat) : Graph × Option TravResult :=
  (g, bfsRun g start?)

/-- Net effect of `DFSModule.run` on the graph, with its result. -/
def dfsRunG (g : Graph) (start? : Option Nat) : Graph × Option TravResult :=
  (g, dfsRun g start?)

/-- Net effect of `DijkstraModule.run` on the graph, with its result. -/
def dijkstraRunG (g : Graph) (start? end? : Option Nat) : Graph × Option DijResult :=
  (g, dijkstraRun g start? end?)

/-- Net effect of `CycleDetectionModule.run` on the graph, with the cycle
list of the undirected branch (the directed branch's report is not modeled
here; like the undirected one it only reads the graph, so the graph
component is the same identity). -/
def cycleRunG (g : Graph) : Graph × Option (List (List Nat)) :=
  (g, if g.nodes = [] then none
      else if g.directed then none
      else some (detectUndirectedCycles g))

/-- Net effect of `EulerianModule.run` on the graph, with its
classification. -/
def eulerianRunG (g : Graph) : Graph × EulerClass :=
  (g, eulerianClass g)

/-- A one-vertex graph, fresh from `add_node` (default color `#4A90E2`). -/
def gC2 : Graph := ((emptyGraph false).add_node 0 0 "A").2

/-- The same graph after the connected-components run: vertex 0 carries the
first palette color. -/
def gC2r : Graph :=
  { nodes := [(0, { id := 0, x := 0, y := 0, label := "A", color := "#FF6B6B" })],
    edges := [], directed := false, next_id := 1 }

/-- Reduction of `ccRun` on a nonempty graph whose component map is known. -/
theorem ccRun_eq_some (g : Graph) (comps : List (Nat × Nat)) (k : Nat)
    (hnil : ¬ g.nodes = []) (hcc : ccComponents g = some (comps, k)) :
    ccRun g = some ({ g with nodes := ccApplyColors g.nodes comps }, comps) := by
  unfold ccRun
  rw [if_neg hnil, hcc]

/-- Recoloring changes no key, id, position or label of any vertex. -/
theorem ccApplyColors_proj (nodes : List (Nat × Node)) (comps : List (Nat × Nat)) :
    (ccApplyColors nodes comps).map (fun p => (p.1, p.2.id, p.2.x, p.2.y, p.2.label)) =
      nodes.map (fun p => (p.1, p.2.id, p.2.x, p.2.y, p.2.label)) := by
  unfold ccApplyColors
  rw [List.map_map]
  apply List.map_congr_left
  intro a _
  simp only [Function.comp_apply]
  cases dictLookup comps a.1 <;> rfl

/-- **C2** (counterexample). The connected-components run does NOT leave the
graph unchanged: on a one-vertex graph it succeeds, yet the returned graph
differs from the input — the vertex's color has been rewritten (from the
default to the first palette color). -/
theorem c2_connected_components_recolors_vertices :
    (ccRun gC2).isSome = true ∧ (ccRun gC2).map Prod.fst ≠ some gC2 ∧
      (ccRun gC2).map (fun p => p.1.nodes.map (fun q => q.2.color)) ≠
        some (gC2.nodes.map (fun q => q.2.color)) := by
  refine ⟨by decide, by decide, by decide⟩

/-- **C2** (amended). BFS, DFS, Dijkstra, cycle detection and the Eulerian
analysis leave the graph exactly unchanged. The connected-components run
preserves the edge sequence, the directed flag, the id counter and every
vertex's key, id, position and label — but rewrites vertex colors. -/
theorem c2_analyses_preserve_graph_except_cc_colors :
    (∀ g s, (bfsRunG g s).1 = g) ∧
    (∀ g s, (dfsRunG g s).1 = g) ∧
    (∀ g s e, (dijkstraRunG g s e).1 = g) ∧
    (∀ g, (cycleRunG g).1 = g) ∧
    (∀ g, (eulerianRunG g).1 = g) ∧
    (∀ g g2 comps, ccRun g = some (g2, comps) →
      g2.edges = g.edges ∧ g2.directed = g.directed ∧ g2.next_id = g.next_id ∧
      g2.nodes.map (fun p => (p.1, p.2.id, p.2.x, p.2.y, p.2.label)) =
        g.nodes.map (fun p => (p.1, p.2.id, p.2.x, p.2.y, p.2.label))) := by
  refine ⟨fun _ _ => rfl, fun _ _ => rfl, fun _ _ _ => rfl, fun _ => rfl,
    fun _ => rfl, ?_⟩
  intro g g2 comps hrun
  by_cases hnil : g.nodes = []
  · unfold ccRun at hrun
    rw [if_pos hnil] at hrun
    simp only [Option.some_inj] at hrun
    have hg : g = g2 := congrArg Prod.fst hrun
    subst hg
    exact ⟨rfl, rfl, rfl, rfl⟩
  · cases hcc : ccComponents g with
    | none =>
      unfold ccRun at hrun
      rw [if_neg hnil, hcc] at hrun
      exact absurd hrun (by simp)
    | some ck =>
      rw [ccRun_eq_some g ck.1 ck.2 hnil (by rw [hcc])] at hrun
      simp only [Option.some_inj] at hrun
      have hg2 : ({ g with nodes := ccApplyColors g.nodes ck.1 } : Graph) = g2 :=
        congrArg Prod.fst hrun
      rw [← hg2]
      exact ⟨rfl, rfl, rfl, ccApplyColors_proj g.nodes ck.1⟩

/-- Witness for `c2_analyses_preserve_graph_except_cc_colors`: on the
one-vertex graph the run returns the concrete recolored graph, and the
preservation conclusions hold there. -/
theorem c2_analyses_preserve_graph_except_cc_colors_witness :
    ccRun gC2 = some (gC2r, [(0, 0)]) ∧
    gC2r.edges = gC2.edges ∧ gC2r.directed = gC2.directed ∧
    gC2r.next_id = gC2.next_id ∧
    gC2r.nodes.map (fun p => (p.1, p.2.id, p.2.x, p.2.y, p.2.label)) =
      gC2.nodes.map (fun p => (p.1, p.2.id, p.2.x, p.2.y, p.2.label)) := by
  have hrun : ccRun gC2 = some (gC2r, [(0, 0)]) := by decide
  have h := c2_analyses_preserve_graph_except_cc_colors.2.2.2.2.2 gC2 gC2r
    [(0, 0)] hrun
  exact ⟨hrun, h.1, h.2.1, h.2.2.1, h.2.2.2⟩

end GraphLabs
